import Mathlib

/-!
Verification development for the THOR hybrid kd-tree builder
(`fastlib/thor/kdtree_builder.h`).

The embedding models the source as executable Lean functions:

* coordinates are rationals (the source uses `double`; all the control
  flow of the builder consists of comparisons and exact arithmetic on
  small values, which ℚ models faithfully);
* the point cache (`CacheArray<Point>`) is a total function `ℕ → Vec`
  together with the in-place `Swap` operation, which becomes a function
  update; `CacheRead`/`CacheWrite` are plain reads since the cache layer
  only provides access, not semantics;
* `DRange`/`DHrectBound` from `tree/bounds.h` are not part of the given
  sources, so they are modelled from the spec: a per-dimension interval
  with union (`|=`), width, midpoint and linear interpolation.  The
  empty bound produced by `Init`/`Reset` is the sentinel interval
  `[DBL_MAX, -DBL_MAX]`, modelled by a large rational constant;
* machine integers (`index_t`, ranks) are ℕ; every subtraction that the
  source performs on signed quantities is either guarded by the
  surrounding control flow or explicitly discussed at its use site;
* the fallible parts (the defensive `BIG_BAD_NUMBER` split-dimension
  abort, and recursion itself) are made total with an explicit fuel
  argument, returning `Option`: `none` models a build that aborts or
  fails to terminate within the given fuel.
-/

/-! ### Intervals and bounds -/

/-- One per-dimension interval of a hyperrectangle bound, as in
`DRange` of `tree/bounds.h` (not part of the given sources).
Modelled from the spec: a bounding region is a per-dimension interval
supporting union with a point, width, midpoint and interpolation. -/
structure DRange where
  lo : ℚ
  hi : ℚ
  deriving DecidableEq, Repr

/-- Stand-in for `DBL_MAX` in the empty-interval sentinel
`[DBL_MAX, -DBL_MAX]` that `DRange::InitEmptySet` produces (any value
above every coordinate of a dataset behaves identically; the general
theorems below do not depend on its size). -/
def dblMaxQ : ℚ :=
  1000000000000000000000000000000000000000000000000000000000000000000000000000000000000000000000000000000000000000000000000000000000000000000000000000000000000000000000000000000000000000000000000000000000000000000000000000000000000000000000000000000000000000000000000000000000000000000000000000000000000000000000

/-- The empty interval sentinel `[DBL_MAX, -DBL_MAX]`. -/
def dEmpty : DRange := ⟨dblMaxQ, -dblMaxQ⟩

/-- Width of an interval (`DRange::width`, also spelled `wid` at one
call site of the builder): `hi - lo`.  Negative on the empty sentinel. -/
def dWid (r : DRange) : ℚ := r.hi - r.lo

/-- Midpoint of an interval (`DRange::mid`). -/
def dMid (r : DRange) : ℚ := (r.lo + r.hi) / 2

/-- Linear interpolation across an interval.  Modelled from the spec:
"interpolate a candidate split value linearly across the current
coordinate interval proportional to how far the goal index is from the
current range start". -/
def dInterp (r : DRange) (t : ℚ) : ℚ := r.lo + t * (r.hi - r.lo)

/-- Intervals ordered by containment; the union `|=` of two intervals
is then the lattice join. -/
instance : SemilatticeSup DRange where
  le r s := s.lo ≤ r.lo ∧ r.hi ≤ s.hi
  le_refl r := ⟨le_refl _, le_refl _⟩
  le_trans a b c hab hbc := ⟨le_trans hbc.1 hab.1, le_trans hab.2 hbc.2⟩
  le_antisymm a b hab hba := by
    cases a; cases b
    simp only [DRange.mk.injEq]
    exact ⟨le_antisymm hba.1 hab.1, le_antisymm hab.2 hba.2⟩
  sup r s := ⟨min r.lo s.lo, max r.hi s.hi⟩
  le_sup_left r s := ⟨min_le_left _ _, le_max_left _ _⟩
  le_sup_right r s := ⟨min_le_right _ _, le_max_right _ _⟩
  sup_le a b c hac hbc :=
    ⟨le_min hac.1 hbc.1, max_le hac.2 hbc.2⟩

theorem DRange.le_def {r s : DRange} : r ≤ s ↔ s.lo ≤ r.lo ∧ r.hi ≤ s.hi := Iff.rfl

theorem DRange.sup_def (r s : DRange) : r ⊔ s = ⟨min r.lo s.lo, max r.hi s.hi⟩ := rfl

/-- A coordinate vector (`Vector` in fastlib); dimensions beyond the
dataset dimensionality are never inspected. -/
abbrev Vec := ℕ → ℚ

/-- A hyperrectangle bound (`DHrectBound`), one interval per dimension;
the pointwise lattice join is the `|=` union of bounds. -/
abbrev HBound := ℕ → DRange

/-- The freshly `Init`-ed / `Reset` bound: every dimension empty. -/
def emptyB : HBound := fun _ => dEmpty

/-- The degenerate bound of a single point: `[v d, v d]` in every
dimension; `b |= vec` of the source is `b ⊔ pointBox v`. -/
def pointBox (v : Vec) : HBound := fun d => ⟨v d, v d⟩

/-- Accumulating one point into a bound, the `*bound |= point->vec()`
operation of the source. -/
def hbAdd (b : HBound) (v : Vec) : HBound := b ⊔ pointBox v

theorem hbAdd_apply (b : HBound) (v : Vec) (d : ℕ) :
    hbAdd b v d = ⟨min (b d).lo (v d), max (b d).hi (v d)⟩ := rfl

/-! ### The point cache -/

/-- The point store; `store i` is the coordinate vector currently held
at dense index `i`. -/
abbrev Store := ℕ → Vec

/-- `points->Swap(i, j)` : exchange the contents of two indices
(generic in the element type, as the cache array template is). -/
def swapStore {α : Type} (s : ℕ → α) (i j : ℕ) : ℕ → α := fun k =>
  if k = i then s j else if k = j then s i else s k

theorem swapStore_eq_comp {α : Type} (s : ℕ → α) (i j : ℕ) :
    swapStore s i j = fun k => s (Equiv.swap i j k) := by
  funext k
  simp only [swapStore, Equiv.swap_apply_def]
  split
  · simp_all
  · split <;> simp_all

/-- The list of elements currently stored at indices `[a, b)`. -/
def pts {α : Type} (s : ℕ → α) (a b : ℕ) : List α :=
  (List.range (b - a)).map (fun i => s (a + i))

/-! ### Partition (`Partition` of `kdtree_builder.h`, lines 23–66)

The source routine is a two-cursor in-place partition: the left cursor
advances over points satisfying `splitcond.is_left`, folding them into
`left_bound`; it halts on a failing point (folded into `right_bound`).
The right cursor symmetrically retreats over failing points; on a
satisfying point the two halted elements are swapped and only the right
cursor steps inward (the left cursor re-examines the swapped-in point
on the next pass, exactly as in the source's outer `for(;;)`).

The mutual control flow is modelled by one function with a phase flag
(`true` = left scan at lines 37–46, `false` = right scan at lines
48–57) and an explicit fuel argument; `Partition` supplies fuel
`2*count + 3`; the fuel hypothesis of `partAux_spec` below is satisfied
by this choice, so `Partition` computes exactly what the source loop
computes.  It is
generic in the element type, the predicate and the bound-accumulation
function, as the C++ template is. -/

def partAux {α β : Type} (p : α → Bool) (f : β → α → β) :
    ℕ → (ℕ → α) → β → β → ℕ → ℕ → Bool → ℕ × (ℕ → α) × β × β
  | 0, store, lb, rb, li, _, _ => (li, store, lb, rb)
  | n + 1, store, lb, rb, li, ri1, true =>
    if ri1 ≤ li then (li, store, lb, rb)
    else if p (store li) then
      partAux p f n store (f lb (store li)) rb (li + 1) ri1 true
    else
      partAux p f n store lb (f rb (store li)) li ri1 false
  | n + 1, store, lb, rb, li, ri1, false =>
    if ri1 ≤ li then (li, store, lb, rb)
    else if p (store (ri1 - 1)) then
      partAux p f n (swapStore store li (ri1 - 1)) (f lb (store (ri1 - 1))) rb li (ri1 - 1) true
    else
      partAux p f n store lb (f rb (store (ri1 - 1))) li (ri1 - 1) false

/-- `Partition(splitcond, begin, count, points, left_bound, right_bound)`.
Returns `(split index, new store, left bound, right bound)`.  The
cursors start at `begin` and `begin + count - 1`; the right cursor is
represented one-past (`ri1`), so the `left_i > right_i` crossing test of
the source is `ri1 ≤ li` and the zero-count case needs no signed
arithmetic. -/
def Partition {α β : Type} (p : α → Bool) (f : β → α → β)
    (b count : ℕ) (store : ℕ → α) (lb rb : β) : ℕ × (ℕ → α) × β × β :=
  partAux p f (2 * count + 3) store lb rb b (b + count) true

/-! ### Correctness of `Partition` -/

theorem swapStore_fst {α : Type} (s : ℕ → α) (i j : ℕ) : swapStore s i j i = s j := by
  simp [swapStore]

theorem swapStore_snd {α : Type} (s : ℕ → α) (i j : ℕ) : swapStore s i j j = s i := by
  by_cases h : j = i
  · subst h; simp [swapStore]
  · simp [swapStore, h]

theorem swapStore_other {α : Type} (s : ℕ → α) (i j k : ℕ)
    (h1 : k ≠ i) (h2 : k ≠ j) : swapStore s i j k = s k := by
  simp [swapStore, h1, h2]

/-- Main loop invariant of the two-cursor partition.  At a state
`(li, ri1, phase)` inside the outer window `[bcol, endo)`: everything
strictly left of the left cursor satisfies the predicate, everything at
or right of the (one-past) right cursor fails it, and in the right-scan
phase the halted left element fails it.  The result then satisfies the
split-index bounds, touches no index outside the live window, is a
permutation of the input store, and its two regions are as the
partition contract states. -/
theorem partAux_spec {α β : Type} (p : α → Bool) (f : β → α → β)
    (bcol endo : ℕ) :
    ∀ (n : ℕ) (store : ℕ → α) (lb rb : β) (li ri1 : ℕ) (phase : Bool)
      (sp : ℕ) (st' : ℕ → α) (lb' rb' : β),
      partAux p f n store lb rb li ri1 phase = (sp, st', lb', rb') →
      2 * (ri1 - li) + (if phase then 2 else 1) ≤ n →
      bcol ≤ li → ri1 ≤ endo → li ≤ ri1 →
      (∀ k, bcol ≤ k → k < li → p (store k) = true) →
      (∀ k, ri1 ≤ k → k < endo → p (store k) = false) →
      (phase = false → p (store li) = false) →
      (li ≤ sp ∧ sp ≤ ri1) ∧
      (∀ k, k < li ∨ ri1 ≤ k → st' k = store k) ∧
      (∃ σ : Equiv.Perm ℕ,
        (∀ k, st' k = store (σ k)) ∧
        (∀ k, k < li ∨ ri1 ≤ k → σ k = k)) ∧
      (∀ k, bcol ≤ k → k < sp → p (st' k) = true) ∧
      (∀ k, sp ≤ k → k < endo → p (st' k) = false) := by
  intro n
  induction n with
  | zero =>
    intro store lb rb li ri1 phase sp st' lb' rb' hres hfuel hb he hle hleft hright hphase
    exfalso
    cases phase <;> simp at hfuel
  | succ n ih =>
    intro store lb rb li ri1 phase sp st' lb' rb' hres hfuel hb he hle hleft hright hphase
    cases phase with
    | true =>
      have hfuel2 : 2 * (ri1 - li) + 2 ≤ n + 1 := by simpa using hfuel
      simp only [partAux] at hres
      by_cases hcross : ri1 ≤ li
      · rw [if_pos hcross] at hres
        have hli : li = ri1 := le_antisymm hle hcross
        simp only [Prod.mk.injEq] at hres
        obtain ⟨h1, h2, _, _⟩ := hres
        subst h1; subst h2
        refine ⟨⟨le_refl _, hle⟩, fun k _ => rfl,
          ⟨Equiv.refl ℕ, fun k => rfl, fun k _ => rfl⟩,
          fun k hk1 hk2 => hleft k hk1 hk2,
          fun k hk1 hk2 => hright k (hli ▸ hk1) hk2⟩
      · rw [if_neg hcross] at hres
        by_cases hp : p (store li) = true
        · -- left cursor advances over a satisfying point
          rw [if_pos hp] at hres
          have hrec := ih store (f lb (store li)) rb (li + 1) ri1 true sp st' lb' rb'
            hres (by simp; omega) (by omega) he (by omega)
            (fun k hk1 hk2 => by
              rcases Nat.lt_succ_iff_lt_or_eq.mp hk2 with h | h
              · exact hleft k hk1 h
              · exact h ▸ hp)
            hright (by simp)
          obtain ⟨⟨hr1, hr2⟩, huntouched, ⟨σ, hσ1, hσ2⟩, hL, hR⟩ := hrec
          refine ⟨⟨by omega, hr2⟩,
            fun k hk => huntouched k (by omega),
            ⟨σ, hσ1, fun k hk => hσ2 k (by omega)⟩, hL, hR⟩
        · -- left cursor halts on a failing point; enter the right scan
          rw [if_neg hp] at hres
          have hp' : p (store li) = false := by
            cases h : p (store li)
            · rfl
            · exact absurd h hp
          exact ih store lb (f rb (store li)) li ri1 false sp st' lb' rb'
            hres (by simp; omega) hb he hle hleft hright (fun _ => hp')
    | false =>
      have hfuel1 : 2 * (ri1 - li) + 1 ≤ n + 1 := by simpa using hfuel
      simp only [partAux] at hres
      by_cases hcross : ri1 ≤ li
      · rw [if_pos hcross] at hres
        have hli : li = ri1 := le_antisymm hle hcross
        simp only [Prod.mk.injEq] at hres
        obtain ⟨h1, h2, _, _⟩ := hres
        subst h1; subst h2
        refine ⟨⟨le_refl _, hle⟩, fun k _ => rfl,
          ⟨Equiv.refl ℕ, fun k => rfl, fun k _ => rfl⟩,
          fun k hk1 hk2 => hleft k hk1 hk2,
          fun k hk1 hk2 => ?_⟩
        rcases Nat.eq_or_lt_of_le hk1 with h | h
        · exact h ▸ hphase rfl
        · exact hright k (by omega) hk2
      · have hlt : li < ri1 := lt_of_not_le hcross
        rw [if_neg hcross] at hres
        by_cases hp : p (store (ri1 - 1)) = true
        · -- right cursor halts on a satisfying point: swap, step inward
          rw [if_pos hp] at hres
          have hrec := ih (swapStore store li (ri1 - 1)) (f lb (store (ri1 - 1))) rb
            li (ri1 - 1) true sp st' lb' rb' hres
            (by simp; omega) hb (by omega) (by omega)
            (fun k hk1 hk2 => by
              rw [swapStore_other store li (ri1 - 1) k (by omega) (by omega)]
              exact hleft k hk1 hk2)
            (fun k hk1 hk2 => by
              rcases Nat.eq_or_lt_of_le hk1 with h | h
              · rw [← h, swapStore_snd]
                exact hphase rfl
              · rw [swapStore_other store li (ri1 - 1) k (by omega) (by omega)]
                exact hright k (by omega) hk2)
            (by simp)
          obtain ⟨⟨hr1, hr2⟩, huntouched, ⟨σ, hσ1, hσ2⟩, hL, hR⟩ := hrec
          refine ⟨⟨hr1, by omega⟩,
            fun k hk => ?_,
            ⟨σ.trans (Equiv.swap li (ri1 - 1)), fun k => ?_, fun k hk => ?_⟩,
            hL, hR⟩
          · rw [huntouched k (by omega)]
            exact swapStore_other store li (ri1 - 1) k (by omega) (by omega)
          · rw [hσ1 k, swapStore_eq_comp]
            rfl
          · have h1 : σ k = k := hσ2 k (by omega)
            have h2 : Equiv.swap li (ri1 - 1) k = k := by
              apply Equiv.swap_apply_of_ne_of_ne <;> omega
            simp [Equiv.trans_apply, h1, h2]
        · -- right cursor retreats over a failing point
          rw [if_neg hp] at hres
          have hp' : p (store (ri1 - 1)) = false := by
            cases h : p (store (ri1 - 1))
            · rfl
            · exact absurd h hp
          have hrec := ih store lb (f rb (store (ri1 - 1))) li (ri1 - 1) false
            sp st' lb' rb' hres (by simp; omega) hb (by omega) (by omega) hleft
            (fun k hk1 hk2 => by
              rcases Nat.eq_or_lt_of_le hk1 with h | h
              · exact h ▸ hp'
              · exact hright k (by omega) hk2)
            (fun _ => hphase rfl)
          obtain ⟨⟨hr1, hr2⟩, huntouched, ⟨σ, hσ1, hσ2⟩, hL, hR⟩ := hrec
          refine ⟨⟨hr1, by omega⟩,
            fun k hk => huntouched k (by omega),
            ⟨σ, hσ1, fun k hk => hσ2 k (by omega)⟩, hL, hR⟩

/-- A permutation that fixes everything outside a window maps the
window into itself. -/
theorem perm_window_closed {σ : Equiv.Perm ℕ} {a b : ℕ}
    (hfix : ∀ k, k < a ∨ b ≤ k → σ k = k) :
    ∀ k, a ≤ k → k < b → a ≤ σ k ∧ σ k < b := by
  intro k hk1 hk2
  by_contra h
  have hout : σ k < a ∨ b ≤ σ k := by omega
  have h1 : σ (σ k) = σ k := hfix (σ k) hout
  have h2 : σ k = k := σ.injective h1
  omega

/-- Full contract of `Partition` on the range `[b, b + count)`:
split-index bounds, indices outside the range untouched, the store
permuted by a permutation fixing the outside, and the predicate
regions on both sides of the returned split index. -/
theorem Partition_spec {α β : Type} (p : α → Bool) (f : β → α → β)
    (b count : ℕ) (store : ℕ → α) (lb rb : β)
    (sp : ℕ) (st' : ℕ → α) (lb' rb' : β)
    (hres : Partition p f b count store lb rb = (sp, st', lb', rb')) :
    (b ≤ sp ∧ sp ≤ b + count) ∧
    (∀ k, k < b ∨ b + count ≤ k → st' k = store k) ∧
    (∃ σ : Equiv.Perm ℕ,
      (∀ k, st' k = store (σ k)) ∧
      (∀ k, k < b ∨ b + count ≤ k → σ k = k)) ∧
    (∀ k, b ≤ k → k < sp → p (st' k) = true) ∧
    (∀ k, sp ≤ k → k < b + count → p (st' k) = false) :=
  partAux_spec p f b (b + count) (2 * count + 3) store lb rb b (b + count) true
    sp st' lb' rb' hres (by simp) (le_refl _) (le_refl _) (by omega)
    (fun k hk1 hk2 => absurd hk1 (by omega))
    (fun k hk1 hk2 => absurd hk1 (by omega))
    (by simp)

/-- C1: For every contiguous index range `[begin, begin+count)` with
`count ≥ 0` and every coordinate predicate, `Partition` permutes only
the points inside that range and returns a `splitIndex` such that every
index `< splitIndex` holds a point satisfying the predicate and every
index `≥ splitIndex` (up to `begin+count`) holds a point that does not;
a zero-width range returns `begin` immediately, an all-satisfying range
returns `begin+count`, and a none-satisfying range returns `begin`. -/
theorem claim_C1_partition_correct {α β : Type} (p : α → Bool) (f : β → α → β)
    (b count : ℕ) (store : ℕ → α) (lb rb : β) :
    (b ≤ (Partition p f b count store lb rb).1 ∧
      (Partition p f b count store lb rb).1 ≤ b + count) ∧
    (∀ k, k < b ∨ b + count ≤ k →
      (Partition p f b count store lb rb).2.1 k = store k) ∧
    (∃ σ : Equiv.Perm ℕ,
      (∀ k, (Partition p f b count store lb rb).2.1 k = store (σ k)) ∧
      (∀ k, k < b ∨ b + count ≤ k → σ k = k)) ∧
    (∀ k, b ≤ k → k < (Partition p f b count store lb rb).1 →
      p ((Partition p f b count store lb rb).2.1 k) = true) ∧
    (∀ k, (Partition p f b count store lb rb).1 ≤ k → k < b + count →
      p ((Partition p f b count store lb rb).2.1 k) = false) ∧
    (count = 0 → (Partition p f b count store lb rb).1 = b) ∧
    ((∀ k, b ≤ k → k < b + count → p (store k) = true) →
      (Partition p f b count store lb rb).1 = b + count) ∧
    ((∀ k, b ≤ k → k < b + count → p (store k) = false) →
      (Partition p f b count store lb rb).1 = b) := by
  obtain ⟨⟨h1, h2⟩, hout, ⟨σ, hσ1, hσ2⟩, hL, hR⟩ :=
    Partition_spec p f b count store lb rb
      (Partition p f b count store lb rb).1
      (Partition p f b count store lb rb).2.1
      (Partition p f b count store lb rb).2.2.1
      (Partition p f b count store lb rb).2.2.2 rfl
  refine ⟨⟨h1, h2⟩, hout, ⟨σ, hσ1, hσ2⟩, hL, hR, fun h0 => by omega,
    fun hall => ?_, fun hnone => ?_⟩
  · by_contra hne
    have hlt : (Partition p f b count store lb rb).1 < b + count :=
      lt_of_le_of_ne h2 hne
    have hfalse := hR _ (le_refl _) hlt
    rw [hσ1] at hfalse
    have hw := perm_window_closed hσ2 _ h1 hlt
    have := hall _ hw.1 hw.2
    rw [this] at hfalse
    exact absurd hfalse (by simp)
  · by_contra hne
    have hlt : b < (Partition p f b count store lb rb).1 :=
      lt_of_le_of_ne h1 (fun h => hne h.symm)
    have htrue := hL b (le_refl _) hlt
    rw [hσ1] at htrue
    have hw := perm_window_closed hσ2 b (le_refl _) (by omega)
    have := hnone _ hw.1 hw.2
    rw [this] at htrue
    exact absurd htrue (by simp)

/-- Witness for C1: a concrete run.  On the four rationals
`0, 5, 1, 7` with predicate `< 2`, `Partition` over `[0, 4)` returns
split index 2, and the instantiated contract holds. -/
theorem claim_C1_partition_correct_witness :
    (Partition (fun v : ℚ => decide (v < 2)) (fun (u : Unit) _ => u) 0 4
      (fun i => [(0 : ℚ), 5, 1, 7].getD i 0) () ()).1 = 2 ∧
    ((0 ≤ (Partition (fun v : ℚ => decide (v < 2)) (fun (u : Unit) _ => u) 0 4
        (fun i => [(0 : ℚ), 5, 1, 7].getD i 0) () ()).1 ∧
      (Partition (fun v : ℚ => decide (v < 2)) (fun (u : Unit) _ => u) 0 4
        (fun i => [(0 : ℚ), 5, 1, 7].getD i 0) () ()).1 ≤ 0 + 4) ∧
     (∀ k, k < 0 ∨ 0 + 4 ≤ k →
       (Partition (fun v : ℚ => decide (v < 2)) (fun (u : Unit) _ => u) 0 4
         (fun i => [(0 : ℚ), 5, 1, 7].getD i 0) () ()).2.1 k =
         (fun i => [(0 : ℚ), 5, 1, 7].getD i 0) k) ∧
     (∃ σ : Equiv.Perm ℕ,
       (∀ k, (Partition (fun v : ℚ => decide (v < 2)) (fun (u : Unit) _ => u) 0 4
         (fun i => [(0 : ℚ), 5, 1, 7].getD i 0) () ()).2.1 k =
         (fun i => [(0 : ℚ), 5, 1, 7].getD i 0) (σ k)) ∧
       (∀ k, k < 0 ∨ 0 + 4 ≤ k → σ k = k)) ∧
     (∀ k, 0 ≤ k →
       k < (Partition (fun v : ℚ => decide (v < 2)) (fun (u : Unit) _ => u) 0 4
         (fun i => [(0 : ℚ), 5, 1, 7].getD i 0) () ()).1 →
       (fun v : ℚ => decide (v < 2))
         ((Partition (fun v : ℚ => decide (v < 2)) (fun (u : Unit) _ => u) 0 4
           (fun i => [(0 : ℚ), 5, 1, 7].getD i 0) () ()).2.1 k) = true) ∧
     (∀ k, (Partition (fun v : ℚ => decide (v < 2)) (fun (u : Unit) _ => u) 0 4
         (fun i => [(0 : ℚ), 5, 1, 7].getD i 0) () ()).1 ≤ k → k < 0 + 4 →
       (fun v : ℚ => decide (v < 2))
         ((Partition (fun v : ℚ => decide (v < 2)) (fun (u : Unit) _ => u) 0 4
           (fun i => [(0 : ℚ), 5, 1, 7].getD i 0) () ()).2.1 k) = false) ∧
     ((4 : ℕ) = 0 →
       (Partition (fun v : ℚ => decide (v < 2)) (fun (u : Unit) _ => u) 0 4
         (fun i => [(0 : ℚ), 5, 1, 7].getD i 0) () ()).1 = 0) ∧
     ((∀ k, 0 ≤ k → k < 0 + 4 →
         (fun v : ℚ => decide (v < 2)) ((fun i => [(0 : ℚ), 5, 1, 7].getD i 0) k) = true) →
       (Partition (fun v : ℚ => decide (v < 2)) (fun (u : Unit) _ => u) 0 4
         (fun i => [(0 : ℚ), 5, 1, 7].getD i 0) () ()).1 = 0 + 4) ∧
     ((∀ k, 0 ≤ k → k < 0 + 4 →
         (fun v : ℚ => decide (v < 2)) ((fun i => [(0 : ℚ), 5, 1, 7].getD i 0) k) = false) →
       (Partition (fun v : ℚ => decide (v < 2)) (fun (u : Unit) _ => u) 0 4
         (fun i => [(0 : ℚ), 5, 1, 7].getD i 0) () ()).1 = 0)) :=
  ⟨by decide,
   claim_C1_partition_correct (fun v : ℚ => decide (v < 2)) (fun (u : Unit) _ => u)
     0 4 (fun i => [(0 : ℚ), 5, 1, 7].getD i 0) () ()⟩

/-! ### Exactness of the accumulated bounds

When the accumulation function is a semilattice join (as the `|=` bound
union is), the two bounds returned by `Partition` are exactly the joins
of the initial bounds with the points that end up on the respective
side of the split, independent of the order and of the double-folding
the source loop performs on swapped elements. -/

/-- Join-fold of `g` over a list, starting from `b`; the shape of every
`bound |= ...` accumulation loop in the builder. -/
def sfold {α β : Type} [SemilatticeSup β] (g : α → β) (l : List α) (b : β) : β :=
  l.foldl (fun acc x => acc ⊔ g x) b

theorem sfold_nil {α β : Type} [SemilatticeSup β] (g : α → β) (b : β) :
    sfold g [] b = b := rfl

theorem sfold_cons {α β : Type} [SemilatticeSup β] (g : α → β) (x : α) (l : List α) (b : β) :
    sfold g (x :: l) b = sfold g l (b ⊔ g x) := rfl

theorem sfold_sup_comm {α β : Type} [SemilatticeSup β] (g : α → β) (l : List α)
    (b y : β) : sfold g l (b ⊔ y) = sfold g l b ⊔ y := by
  induction l generalizing b with
  | nil => rfl
  | cons x t ih =>
    rw [sfold_cons, sfold_cons, sup_right_comm, ih]

theorem sfold_concat {α β : Type} [SemilatticeSup β] (g : α → β) (l : List α)
    (x : α) (b : β) : sfold g (l ++ [x]) b = sfold g l b ⊔ g x := by
  unfold sfold
  rw [List.foldl_append]
  rfl

theorem sfold_absorb {α β : Type} [SemilatticeSup β] (g : α → β) {l : List α}
    {x : α} (hx : x ∈ l) (b : β) : sfold g l b ⊔ g x = sfold g l b := by
  induction l generalizing b with
  | nil => cases hx
  | cons y t ih =>
    rw [sfold_cons]
    rcases List.mem_cons.mp hx with h | h
    · subst h
      rw [sfold_sup_comm, sup_assoc, sup_idem, ← sfold_sup_comm]
    · exact ih h _

theorem pts_empty {α : Type} (s : ℕ → α) (a b : ℕ) (h : b ≤ a) : pts s a b = [] := by
  simp [pts, Nat.sub_eq_zero_of_le h]

theorem pts_cons {α : Type} (s : ℕ → α) (a b : ℕ) (h : a < b) :
    pts s a b = s a :: pts s (a + 1) b := by
  unfold pts
  have h1 : b - a = (b - (a + 1)) + 1 := by omega
  rw [h1, List.range_succ_eq_map, List.map_cons, List.map_map]
  simp only [Nat.add_zero]
  congr 1
  exact List.map_congr_left (fun i _ => by
    have h2 : a + (i + 1) = a + 1 + i := by omega
    simp [Function.comp, h2])

theorem pts_snoc {α : Type} (s : ℕ → α) (a b : ℕ) (h : a ≤ b) :
    pts s a (b + 1) = pts s a b ++ [s b] := by
  unfold pts
  have h1 : b + 1 - a = (b - a) + 1 := by omega
  rw [h1, List.range_succ, List.map_append, List.map_cons, List.map_nil]
  have h2 : a + (b - a) = b := by omega
  rw [h2]

theorem pts_congr {α : Type} (s1 s2 : ℕ → α) (a b : ℕ)
    (h : ∀ k, a ≤ k → k < b → s1 k = s2 k) : pts s1 a b = pts s2 a b := by
  unfold pts
  exact List.map_congr_left (fun i hi => h (a + i) (by omega)
    (by have := List.mem_range.mp hi; omega))

theorem mem_pts_self {α : Type} (s : ℕ → α) (a b : ℕ) (h : a < b) : s a ∈ pts s a b := by
  rw [pts_cons s a b h]
  exact List.mem_cons_self _ _

/-- Bound-accumulation invariant of the partition loop, for a join
accumulator.  In the left-scan phase the left bound is the join of the
points settled left of the cursor (possibly already including the
swapped-in element the cursor is about to re-examine — the source
double-folds it, which the join absorbs), and the right bound is the
join of the points settled right of the cursor; in the right-scan phase
the right bound additionally holds the halted left element.  On return,
the two bounds are exactly the joins of the initial bounds with the
final left and right regions. -/
theorem partAux_bounds {α β : Type} [SemilatticeSup β] (p : α → Bool)
    (g : α → β) (bcol endo : ℕ) (lb0 rb0 : β) :
    ∀ (n : ℕ) (store : ℕ → α) (lb rb : β) (li ri1 : ℕ) (phase : Bool)
      (sp : ℕ) (st' : ℕ → α) (lb' rb' : β),
      partAux p (fun b a => b ⊔ g a) n store lb rb li ri1 phase = (sp, st', lb', rb') →
      2 * (ri1 - li) + (if phase then 2 else 1) ≤ n →
      bcol ≤ li → ri1 ≤ endo → li ≤ ri1 →
      (phase = false → p (store li) = false ∧ li < endo) →
      (phase = true →
        lb = sfold g (pts store bcol li) lb0 ∨
        (lb = sfold g (pts store bcol li) lb0 ⊔ g (store li) ∧
          p (store li) = true ∧ li < ri1)) →
      (phase = true → rb = sfold g (pts store ri1 endo) rb0) →
      (phase = false → lb = sfold g (pts store bcol li) lb0) →
      (phase = false → rb = sfold g (pts store ri1 endo) rb0 ⊔ g (store li)) →
      lb' = sfold g (pts st' bcol sp) lb0 ∧
      rb' = sfold g (pts st' sp endo) rb0 := by
  intro n
  induction n with
  | zero =>
    intro store lb rb li ri1 phase sp st' lb' rb' hres hfuel
    exfalso
    cases phase <;> simp at hfuel
  | succ n ih =>
    intro store lb rb li ri1 phase sp st' lb' rb' hres hfuel hb he hle hphase hlbT hrbT hlbF hrbF
    cases phase with
    | true =>
      have hfuel2 : 2 * (ri1 - li) + 2 ≤ n + 1 := by simpa using hfuel
      simp only [partAux] at hres
      by_cases hcross : ri1 ≤ li
      · rw [if_pos hcross] at hres
        have hli : li = ri1 := le_antisymm hle hcross
        simp only [Prod.mk.injEq] at hres
        obtain ⟨h1, h2, h3, h4⟩ := hres
        subst h1; subst h2; subst h3; subst h4
        rcases hlbT rfl with h | ⟨_, _, hlt⟩
        · exact ⟨h, by rw [hrbT rfl, hli]⟩
        · omega
      · rw [if_neg hcross] at hres
        have hlt : li < ri1 := lt_of_not_le hcross
        by_cases hp : p (store li) = true
        · rw [if_pos hp] at hres
          have hL1 : sfold g (pts store bcol (li + 1)) lb0 =
              sfold g (pts store bcol li) lb0 ⊔ g (store li) := by
            rw [pts_snoc store bcol li hb, sfold_concat]
          refine ih store (lb ⊔ g (store li)) rb (li + 1) ri1 true sp st' lb' rb'
            hres (by simp; omega) (by omega) he (by omega) (by simp)
            (fun _ => Or.inl ?_) (fun _ => hrbT rfl) (by simp) (by simp)
          rcases hlbT rfl with h | ⟨h, _, _⟩
          · rw [h, hL1]
          · rw [h, hL1, sup_assoc, sup_idem]
        · rw [if_neg hp] at hres
          have hp' : p (store li) = false := by
            cases h : p (store li)
            · rfl
            · exact absurd h hp
          refine ih store lb (rb ⊔ g (store li)) li ri1 false sp st' lb' rb'
            hres (by simp; omega) hb he hle
            (fun _ => ⟨hp', by omega⟩) (by simp) (by simp)
            (fun _ => ?_) (fun _ => by rw [hrbT rfl])
          rcases hlbT rfl with h | ⟨_, hptrue, _⟩
          · exact h
          · exact absurd hptrue (by simp [hp'])
    | false =>
      have hfuel1 : 2 * (ri1 - li) + 1 ≤ n + 1 := by simpa using hfuel
      obtain ⟨hpli, hliend⟩ := hphase rfl
      simp only [partAux] at hres
      by_cases hcross : ri1 ≤ li
      · rw [if_pos hcross] at hres
        have hli : li = ri1 := le_antisymm hle hcross
        simp only [Prod.mk.injEq] at hres
        obtain ⟨h1, h2, h3, h4⟩ := hres
        subst h1; subst h2; subst h3; subst h4
        refine ⟨hlbF rfl, ?_⟩
        rw [hrbF rfl, hli]
        exact sfold_absorb g (mem_pts_self store ri1 endo (hli ▸ hliend)) rb0
      · rw [if_neg hcross] at hres
        have hlt : li < ri1 := lt_of_not_le hcross
        have hR1 : sfold g (pts store (ri1 - 1) endo) rb0 =
            sfold g (pts store ri1 endo) rb0 ⊔ g (store (ri1 - 1)) := by
          rw [pts_cons store (ri1 - 1) endo (by omega)]
          have h2 : ri1 - 1 + 1 = ri1 := by omega
          rw [sfold_cons, h2, sfold_sup_comm]
        by_cases hp : p (store (ri1 - 1)) = true
        · rw [if_pos hp] at hres
          have hne : li ≠ ri1 - 1 := by
            intro h
            rw [← h] at hp
            simp [hpli] at hp
          have hlt2 : li < ri1 - 1 := by omega
          -- the swapped store agrees with the old one outside {li, ri1-1}
          have hpts_lo : pts (swapStore store li (ri1 - 1)) bcol li = pts store bcol li :=
            pts_congr _ _ _ _ (fun k hk1 hk2 =>
              swapStore_other store li (ri1 - 1) k (by omega) (by omega))
          have hpts_hi : pts (swapStore store li (ri1 - 1)) ri1 endo = pts store ri1 endo :=
            pts_congr _ _ _ _ (fun k hk1 hk2 =>
              swapStore_other store li (ri1 - 1) k (by omega) (by omega))
          refine ih (swapStore store li (ri1 - 1)) (lb ⊔ g (store (ri1 - 1))) rb
            li (ri1 - 1) true sp st' lb' rb' hres (by simp; omega) hb (by omega) (by omega)
            (by simp) (fun _ => Or.inr ⟨?_, ?_, hlt2⟩) (fun _ => ?_) (by simp) (by simp)
          · rw [hpts_lo, hlbF rfl, swapStore_fst]
          · rw [swapStore_fst]
            exact hp
          · -- right bound over `[ri1-1, endo)` of the swapped store
            rw [pts_cons (swapStore store li (ri1 - 1)) (ri1 - 1) endo (by omega)]
            have h2 : ri1 - 1 + 1 = ri1 := by omega
            rw [sfold_cons, h2, hpts_hi, sfold_sup_comm]
            have h3 : swapStore store li (ri1 - 1) (ri1 - 1) = store li :=
              swapStore_snd store li (ri1 - 1)
            rw [h3]
            exact hrbF rfl
        · rw [if_neg hp] at hres
          have hp' : p (store (ri1 - 1)) = false := by
            cases h : p (store (ri1 - 1))
            · rfl
            · exact absurd h hp
          refine ih store lb (rb ⊔ g (store (ri1 - 1))) li (ri1 - 1) false sp st' lb' rb'
            hres (by simp; omega) hb (by omega) (by omega)
            (fun _ => ⟨hpli, hliend⟩) (by simp) (by simp)
            (fun _ => hlbF rfl) (fun _ => ?_)
          rw [hrbF rfl, hR1, sup_right_comm]

/-- `Partition` with a join accumulator returns exactly the joins of
the initial bounds with the two regions of the partitioned store. -/
theorem Partition_bounds {α β : Type} [SemilatticeSup β] (p : α → Bool)
    (g : α → β) (b count : ℕ) (store : ℕ → α) (lb0 rb0 : β)
    (sp : ℕ) (st' : ℕ → α) (lb' rb' : β)
    (hres : Partition p (fun acc a => acc ⊔ g a) b count store lb0 rb0 = (sp, st', lb', rb')) :
    lb' = sfold g (pts st' b sp) lb0 ∧
    rb' = sfold g (pts st' sp (b + count)) rb0 :=
  partAux_bounds p g b (b + count) lb0 rb0 (2 * count + 3) store lb0 rb0
    b (b + count) true sp st' lb' rb' hres (by simp) (le_refl _) (le_refl _)
    (by omega) (by simp)
    (fun _ => Or.inl (by rw [pts_empty store b b (le_refl _), sfold_nil]))
    (fun _ => by rw [pts_empty store (b + count) (b + count) (le_refl _), sfold_nil])
    (by simp) (by simp)

/-! ### The hybrid kd-tree builder (`KdTreeHybridBuilder`)

The builder is a class template over the point type, the node type and
the statistic parameters.  The embedding keeps the statistic entirely
generic: a build context carries the statistic type `σ` with its
`Accumulate` (from a raw point and from a child) and `Postprocess`
operations, together with the tuning values the class reads from its
module and from the runtime (`leaf_size_`, `chunk_size_`, `n_points_`,
`rpc::n_peers()`) and the dataset dimensionality `dim_`. -/

structure BuildCtx (σ : Type) where
  dim : ℕ
  leafSize : ℕ
  chunkSize : ℕ
  nPoints : ℕ
  nPeers : ℕ
  statInit : σ
  accPoint : σ → Vec → σ
  accChild : σ → σ → HBound → ℕ → σ
  post : σ → HBound → ℕ → σ

/-- A built tree node: its index range `[b, e)`, its bound, its
(post-processed) statistic, and its two children unless it is a leaf. -/
inductive KdTree (σ : Type) where
  | leaf (b e : ℕ) (bound : HBound) (stat : σ)
  | node (b e : ℕ) (bound : HBound) (stat : σ) (c0 c1 : KdTree σ)

/-- A decomposition-tree node (`ThorTreeDecomposition::DecompNode`):
the machine-rank range `[brank, erank)` owning the subtree, the index
range `[nb, ne)` of the corresponding spatial node (standing in for the
stored node reference), and zero or two children. -/
inductive DecompNode where
  | dleaf (brank erank nb ne : ℕ)
  | dnode (brank erank nb ne : ℕ) (c0 c1 : DecompNode)

/-- Everything one `Build_` invocation produces: the subtree, the
reordered store, the ownership-transfer events `(block id, new owner)`
it performed in order, the decomposition node it created (if its
`decomp_pp` out-parameter was non-null), and the node's statistic
before `Postprocess` — which is what the source accumulates into the
parent (`parent->stat().Accumulate(...)` runs before
`node->stat().Postprocess(...)`). -/
structure BuildOut (σ : Type) where
  tree : KdTree σ
  store : Store
  events : List (ℕ × ℕ)
  decomp : Option DecompNode
  preStat : σ

def treeB {σ : Type} : KdTree σ → ℕ
  | .leaf b _ _ _ => b
  | .node b _ _ _ _ _ => b

def treeE {σ : Type} : KdTree σ → ℕ
  | .leaf _ e _ _ => e
  | .node _ e _ _ _ _ => e

def treeBound {σ : Type} : KdTree σ → HBound
  | .leaf _ _ bd _ => bd
  | .node _ _ bd _ _ _ => bd

def treeStat {σ : Type} : KdTree σ → σ
  | .leaf _ _ _ st => st
  | .node _ _ _ st _ _ => st

/-- `node->count()` as stored by `set_range`: `end - begin`. -/
def treeCount {σ : Type} (t : KdTree σ) : ℕ := treeE t - treeB t

def treeIsLeaf {σ : Type} : KdTree σ → Bool
  | .leaf _ _ _ _ => true
  | .node _ _ _ _ _ _ => false

def child0 {σ : Type} : KdTree σ → Option (KdTree σ)
  | .leaf _ _ _ _ => none
  | .node _ _ _ _ c0 _ => some c0

def child1 {σ : Type} : KdTree σ → Option (KdTree σ)
  | .leaf _ _ _ _ => none
  | .node _ _ _ _ _ c1 => some c1

instance {σ : Type} [Inhabited σ] : Inhabited (KdTree σ) :=
  ⟨.leaf 0 0 emptyB default⟩

instance {σ : Type} [Inhabited σ] : Inhabited (BuildOut σ) :=
  ⟨⟨default, fun _ => 0, [], none, default⟩⟩

/-- The bounding box of the points currently stored at `[a, b)`:
the join of their point boxes over the freshly reset bound, exactly
what a `*bound |= point->vec()` loop over the range computes. -/
def bboxRange (s : Store) (a b : ℕ) : HBound := sfold pointBox (pts s a b) emptyB

/-- `FindBoundingBox_(begin, count, bound)` (lines 184–191): fold every
point of the range into the bound. -/
def FindBoundingBox_ (s : Store) (b count : ℕ) : HBound := bboxRange s b (b + count)

/-- The widest-dimension search of `Build_` (lines 209–220):
`max_width` starts at `-1` and `split_dim` at `BIG_BAD_NUMBER`; a
dimension is recorded whenever its width strictly exceeds the best so
far.  `none` models `split_dim` remaining `BIG_BAD_NUMBER`, on which
the subsequent `bound().get(split_dim)` is the defensive abort the spec
describes (possible when every width is below `-1`, e.g. on a bound
that was never accumulated into). -/
def findSplitDim (dim : ℕ) (bd : HBound) : Option ℕ :=
  ((List.range dim).foldl
    (fun acc d => if dWid (bd d) > acc.2 then (some d, dWid (bd d)) else acc)
    ((none : Option ℕ), (-1 : ℚ))).1

/-- The goal split index of `Split_` (lines 298–319): the index midpoint
for a single-machine rank range, otherwise the global fraction
`split_rank / n_peers` of the global point count computed as
`(split_rank * 2 * n_points + n_peers) / n_peers / 2`; then rounded to
the nearest multiple of the chunk size by
`(goal + chunk/2) / chunk * chunk`. -/
def goalCol (chunk nPoints nPeers bcol ecol brank erank : ℕ) : ℕ :=
  let splitRank := (brank + erank) / 2
  let g0 := if erank ≤ brank + 1 then (bcol + ecol) / 2
            else (splitRank * 2 * nPoints + nPeers) / nPeers / 2
  (g0 + chunk / 2) / chunk * chunk

/-- State of the interpolation-search loop of `Split_` (lines 321–361):
the working index range `[bcol, ecol)`, the current value interval on
the split dimension, and the accumulated final bounds. -/
structure SplitState where
  store : Store
  bcol : ℕ
  ecol : ℕ
  crange : DRange
  fl : HBound
  fr : HBound

/-- Result of the loop: the split column, the final working range
(which the source then uses as the children's ranges), the final
bounds, and the reordered store. -/
structure SplitDone where
  splitCol : ℕ
  bcol : ℕ
  ecol : ℕ
  fl : HBound
  fr : HBound
  store : Store

instance : Inhabited SplitDone := ⟨⟨0, 0, 0, emptyB, emptyB, fun _ => 0⟩⟩

/-- One iteration of the interpolation-search loop, lines 322–360:
interpolate a split value at the goal's fractional position in the
working range, partition on it (with freshly `Reset` iteration bounds),
and either stop (split lands on the goal, or the remaining interval is
degenerate and the split is forced to the goal with the degenerate
group's bound merged into both sides) or narrow the working range
toward the goal and continue. -/
def splitStep (sd goal : ℕ) (st : SplitState) : SplitDone ⊕ SplitState :=
  let t : ℚ := ((goal : ℚ) - (st.bcol : ℚ)) / ((st.ecol : ℚ) - (st.bcol : ℚ))
  let splitVal := dInterp st.crange t
  let r := Partition (fun v : Vec => decide (v sd < splitVal))
    (fun acc a => acc ⊔ pointBox a) st.bcol (st.ecol - st.bcol) st.store emptyB emptyB
  let scol := r.1
  let store' := r.2.1
  let lb := r.2.2.1
  let rb := r.2.2.2
  if scol = goal then
    .inl ⟨goal, st.bcol, st.ecol, st.fl ⊔ lb, st.fr ⊔ rb, store'⟩
  else if scol < goal then
    -- undershoot: keep the left bound, narrow to the right part
    if dWid (rb sd) = 0 then
      -- right part degenerate: force the split at the goal
      .inl ⟨goal, st.bcol, st.ecol, (st.fl ⊔ lb) ⊔ rb, st.fr ⊔ rb, store'⟩
    else
      .inr ⟨store', scol, st.ecol, rb sd, st.fl ⊔ lb, st.fr⟩
  else
    -- overshoot: keep the right bound, narrow to the left part
    if dWid (lb sd) = 0 then
      .inl ⟨goal, st.bcol, st.ecol, st.fl ⊔ lb, (st.fr ⊔ rb) ⊔ lb, store'⟩
    else
      .inr ⟨store', st.bcol, scol, lb sd, st.fl, st.fr ⊔ rb⟩

/-- The interpolation-search loop, iterated with fuel. -/
def splitSearch (sd goal : ℕ) : ℕ → SplitState → Option SplitDone
  | 0, _ => none
  | n + 1, st =>
    match splitStep sd goal st with
    | .inl d => some d
    | .inr st' => splitSearch sd goal n st'

/-- Leaf statistic accumulation (lines 230–233): fold every raw point
of the leaf's range into the fresh statistic. -/
def leafStat {σ : Type} (C : BuildCtx σ) (s : Store) (b e : ℕ) : σ :=
  (pts s b e).foldl C.accPoint C.statInit

/-- What `Split_` hands back to `Build_`: the two fully built children
and the ownership-transfer event it performed (empty or a single
`(block id, rank)` pair). -/
structure SplitOut (σ : Type) where
  out0 : BuildOut σ
  out1 : BuildOut σ
  transfer : List (ℕ × ℕ)

/-- `Split_` (lines 260–373).  `buildChild` is the recursive `Build_`
call (passed explicitly so that only `Build_` recurses on fuel).

Faithfulness notes, keyed to the source:

* lines 276–283: the ownership transfer fires when the node's begin is
  block-aligned (`begin & n_block_elems_mask == 0`, the bit test kept
  literally as `&&&` with `chunk - 1`) and the parent does not share
  that begin; the source reads a variable `parent` that is not in scope
  in `Split_` (the enclosing `Build_` has it), so the node's parent
  begin is threaded in as `parentBegin` (`none` for the root, matching
  `!parent`).  `Blockid` is modelled from the spec as index divided by
  block size.
* lines 285–297: at or below the chunk size, a single midpoint
  partition, except that a zero-width axis splits at the index midpoint
  `(begin+end)/2`; note the source leaves `final_left_bound` and
  `final_right_bound` untouched (freshly `Init`-ed, hence empty) in
  that case.
* lines 298–361: above the chunk size, the goal computation and the
  interpolation-search loop, including the mutation of the local
  `begin_col` / `end_col` as the loop narrows.
* lines 364–372: if the rank range has at most one machine the local
  decomposition out-parameters are nulled, so the children build no
  decomposition nodes; the children are built over `(begin_col,
  split_col)` and `(split_col, end_col)` — the possibly narrowed loop
  locals, not `node->begin()` / `node->end()`. -/
def Split_ {σ : Type} (C : BuildCtx σ)
    (buildChild : Store → ℕ → ℕ → ℕ → ℕ → HBound → Option ℕ → Bool → Option (BuildOut σ))
    (sfuel : ℕ) (store : Store) (nodeB nodeE : ℕ) (nodeBound : HBound)
    (brank erank splitDim : ℕ) (parentBegin : Option ℕ) : Option (SplitOut σ) :=
  let splitRank := (brank + erank) / 2
  let currentRange := nodeBound splitDim
  let transfer : List (ℕ × ℕ) :=
    if nodeB &&& (C.chunkSize - 1) = 0 ∧ parentBegin ≠ some nodeB then
      [(nodeB / C.chunkSize, brank)]
    else []
  let step : Option SplitDone :=
    if nodeE - nodeB ≤ C.chunkSize then
      if dWid currentRange = 0 then
        -- all points equal on the split axis: index-midpoint split,
        -- final bounds left as initialized (empty)
        some ⟨(nodeB + nodeE) / 2, nodeB, nodeE, emptyB, emptyB, store⟩
      else
        -- single midpoint partition (HrectPartitionCondition: coordinate
        -- strictly below the interval midpoint goes left)
        let r := Partition (fun v : Vec => decide (v splitDim < dMid currentRange))
          (fun acc a => acc ⊔ pointBox a) nodeB (nodeE - nodeB) store emptyB emptyB
        some ⟨r.1, nodeB, nodeE, r.2.2.1, r.2.2.2, r.2.1⟩
    else
      splitSearch splitDim
        (goalCol C.chunkSize C.nPoints C.nPeers nodeB nodeE brank erank)
        sfuel ⟨store, nodeB, nodeE, currentRange, emptyB, emptyB⟩
  let childWant := decide (1 < erank - brank)
  match step with
  | none => none
  | some d =>
    match buildChild d.store d.bcol d.splitCol brank splitRank d.fl
      (some nodeB) childWant with
    | none => none
    | some o0 =>
      match buildChild o0.store d.splitCol d.ecol splitRank erank d.fr
        (some nodeB) childWant with
      | none => none
      | some o1 => some ⟨o0, o1, transfer⟩

/-- Assemble this node's decomposition node (lines 244–253): children
are attached exactly when the child builds produced decomposition
nodes (the source asserts they are both present or both absent). -/
def mkDecomp (brank erank nb ne : ℕ) :
    Option DecompNode → Option DecompNode → DecompNode
  | some d0, some d1 => .dnode brank erank nb ne d0 d1
  | _, _ => .dleaf brank erank nb ne

/-- `Build_` (lines 193–258), as a fuel-indexed function.

Deliberate departures from the literal source text, each a scope or
definedness repair (the header as given does not compile), recorded
here and assessed against the claims where relevant:

* line 200 computes `leaf` from `node->count()` *before* line 204's
  `set_range` assigns the node's range, i.e. from the count field of a
  freshly allocated, never-initialized node.  An executable model must
  pick a defined reading; this one uses the count of the range being
  built (`end_col - begin_col`), the only meaningful choice.  The
  literal source ordering is modelled separately by `buildPrologue`
  (claim C4).
* the declaration returns `index_t` while the definition is `void` and
  ends in `return decomp` with `decomp` undeclared; the model returns
  the built node (within `BuildOut`).
* `dim_` is not a member of the class; it is the dataset dimensionality
  (spec §9) and lives in the context.
* the statistic flow follows lines 225–242 exactly: a leaf accumulates
  its raw points; every node first accumulates its pre-`Postprocess`
  statistic into its parent (modelled by returning `preStat`, which the
  parent folds with `accChild` in child order) and then post-processes
  its own statistic. -/
def Build_ {σ : Type} (C : BuildCtx σ) :
    ℕ → Store → ℕ → ℕ → ℕ → ℕ → HBound → Option ℕ → Bool → Option (BuildOut σ)
  | 0, _, _, _, _, _, _, _, _ => none
  | fuel + 1, store, bcol, ecol, brank, erank, bound, parentBegin, wantDecomp =>
    let count := ecol - bcol
    -- node->set_range; node->bound().Reset(); node->bound() |= bound
    let nodeBound := emptyB ⊔ bound
    if count ≤ C.leafSize then
      let stat0 := leafStat C store bcol ecol
      some ⟨.leaf bcol ecol nodeBound (C.post stat0 nodeBound count),
            store, [],
            if wantDecomp then some (.dleaf brank erank bcol ecol) else none,
            stat0⟩
    else
      match findSplitDim C.dim nodeBound with
      | none => none   -- split_dim == BIG_BAD_NUMBER: defensive abort
      | some splitDim =>
        match Split_ C (Build_ C fuel) fuel store bcol ecol nodeBound
          brank erank splitDim parentBegin with
        | none => none
        | some so =>
          let stat1 := C.accChild C.statInit so.out0.preStat
            (treeBound so.out0.tree) (treeCount so.out0.tree)
          let stat2 := C.accChild stat1 so.out1.preStat
            (treeBound so.out1.tree) (treeCount so.out1.tree)
          some ⟨.node bcol ecol nodeBound (C.post stat2 nodeBound count)
              so.out0.tree so.out1.tree,
            so.out1.store,
            so.transfer ++ so.out0.events ++ so.out1.events,
            if wantDecomp then
              some (mkDecomp brank erank bcol ecol so.out0.decomp so.out1.decomp)
            else none,
            stat2⟩

/-- `Doit` (lines 152–182): set `n_points_`, compute the bounding box
of the whole input range, and build.  Two notes: the source computes
the bounding box with `node->begin()` / `node->end()` where no `node`
is in scope — per the spec (§9) the intent is the whole input range
`[begin_index, end_index)`, modelled so; and the root rank range upper
bound is whatever the source's `rpc::rank()` call returns, kept here as
the explicit argument `rootEndRank`. -/
def Doit {σ : Type} (C : BuildCtx σ) (fuel : ℕ) (store : Store)
    (beginIndex endIndex rootEndRank : ℕ) : Option (BuildOut σ) :=
  Build_ { C with nPoints := endIndex - beginIndex } fuel store beginIndex endIndex
    0 rootEndRank (FindBoundingBox_ store beginIndex (endIndex - beginIndex)) none true

/-- A tree node record as the node cache holds it: begin, count, bound,
statistic. -/
structure NodeRec (σ : Type) where
  b : ℕ
  count : ℕ
  bound : HBound
  stat : σ

/-- The node-allocation prologue of `Build_`, lines 198–204, in literal
source order: allocate (`fresh` is whatever the freshly allocated node
holds), compute the `leaf` flag from `node->count()` (line 200), then
`set_range(begin_col, end_col - begin_col)` (line 204). -/
def buildPrologue {σ : Type} (C : BuildCtx σ) (fresh : NodeRec σ)
    (bcol ecol : ℕ) : Bool × NodeRec σ :=
  let leaf := decide (fresh.count ≤ C.leafSize)
  (leaf, { fresh with b := bcol, count := ecol - bcol })

/-! ### Concrete build scenarios

A trivial (`Unit`) statistic context and one-dimensional stores used by
the concrete evaluations below. -/

/-- A build context with a trivial statistic, used for concrete runs;
`nPoints` is irrelevant since `Doit` recomputes it. -/
def unitCtx (dim leafSize chunkSize nPeers : ℕ) : BuildCtx Unit :=
  ⟨dim, leafSize, chunkSize, 0, nPeers, (), fun _ _ => (), fun _ _ _ _ => (), fun s _ _ => s⟩

/-- A store of one-dimensional points listed by index. -/
def lineStore (l : List ℚ) : Store := fun i _ => l.getD i 0

set_option maxRecDepth 8000

/-- C2 is false of the code: `Split_` builds the children over the loop
locals `begin_col` / `end_col` (lines 369–372), which the interpolation
loop has narrowed (lines 348, 359), not over the node's own range.  On
the four 1-D points `0, 5, 9, 9` with leaf size 1, chunk size 1 and a
single machine, the goal index is 2; the first iteration undershoots
(split 1 < 2) and narrows `begin_col` to 1, the second lands on the
goal, so the root `[0, 4)` gets children `[1, 2)` and `[2, 4)`:
`child0.begin = 1 ≠ 0 = node.begin`, and index 0 belongs to no child.
This contradicts the node invariant the spec states (and the bounds /
statistics bookkeeping of the very same function, which does cover the
dropped prefix), so it is recorded as a code bug. -/
theorem claim_C2_children_tile_failing :
    (Doit (unitCtx 1 1 1 1) 20 (lineStore [0, 5, 9, 9]) 0 4 1).map
      (fun o => (treeB o.tree, (child0 o.tree).map treeB,
        (child1 o.tree).map treeB, (child1 o.tree).map treeE, treeE o.tree)) =
    some (0, some 1, some 2, some 4, 4) := by
  with_unfolding_all rfl

/-- C7 is false of the code: on four identical 2-D points `(5, 5)` with
leaf size 1 and chunk size 4, the root takes the zero-width-axis
index-midpoint path (line 290), which leaves `final_left_bound` and
`final_right_bound` untouched — i.e. empty — so both children `[0, 2)`
and `[2, 4)` receive empty bounds; being non-leaves, their
widest-dimension search finds no dimension with width above `-1`,
`split_dim` stays `BIG_BAD_NUMBER`, and the build hits the defensive
abort instead of terminating with four single-point zero-width
leaves. -/
theorem claim_C7_identical_points_abort :
    Doit (unitCtx 2 1 4 1) 30 (fun _ _ => (5 : ℚ)) 0 4 1 = none := by
  with_unfolding_all rfl

/-- Counterexample to C3 as stated: on the 1-D points `0, 5, 5, 9`
(leaf size 1, chunk size 1, one machine) the goal-seeking split of the
root undershoots once (narrowing the range) and then force-splits a
degenerate group, merging its bound into both sides; the resulting
child `[1, 2)` holds the single coordinate 5 but carries bound
`[0, 5]` — a strict superset of its range's bounding box `[5, 5]`. -/
theorem claim_C3_bound_not_exact_counterexample :
    ((Doit (unitCtx 1 1 1 1) 20 (lineStore [0, 5, 5, 9]) 0 4 1).map
      (fun o => (child0 o.tree).map
        (fun t => (treeBound t 0, bboxRange o.store (treeB t) (treeE t) 0))) =
      some (some (⟨0, 5⟩, ⟨5, 5⟩))) ∧
    (⟨0, 5⟩ : DRange) ≠ (⟨5, 5⟩ : DRange) := by
  constructor
  · with_unfolding_all rfl
  · intro h
    have h2 : (0 : ℚ) = 5 := congrArg DRange.lo h
    norm_num at h2

/-- Counterexample to C8 as stated: ownership transfer lives in
`Split_` (lines 276–283), which only non-leaf nodes reach.  In a build
of 8 points with leaf size 32 and chunk size 4, the root is a leaf
whose range begins exactly on a block boundary (`0 &&& 3 = 0`) and has
no parent, so the claim's transfer rule applies to it — yet the build
performs no transfer at all. -/
theorem claim_C8_leaf_no_transfer_counterexample :
    ((Doit (unitCtx 1 32 4 1) 30 (fun i _ => (i : ℚ)) 0 8 1).map
      (fun o => (o.events, treeIsLeaf o.tree, treeB o.tree)) =
      some ([], true, 0)) ∧
    (0 : ℕ) &&& (4 - 1) = 0 := by
  exact ⟨by with_unfolding_all rfl, rfl⟩

/-- C4 is false of the code: `Build_` computes the `leaf` flag at line
200 from `node->count()` — the count field of the node it has just
allocated, *before* line 204's `set_range` stores the range being
built.  Whatever value the fresh node's count field holds, the decision
is independent of `[begin_col, end_col)`, so for every possible fresh
node there are ranges it misclassifies: the flag disagrees with
`end_col - begin_col ≤ leaf_size` on either `[0, leaf_size + 1)` or
`[0, 0)`. -/
theorem claim_C4_leaf_decision_bug {σ : Type} (C : BuildCtx σ) (fresh : NodeRec σ) :
    ∃ bcol ecol : ℕ,
      (buildPrologue C fresh bcol ecol).1 ≠ decide (ecol - bcol ≤ C.leafSize) := by
  by_cases h : fresh.count ≤ C.leafSize
  · refine ⟨0, C.leafSize + 1, fun hiff => ?_⟩
    simp only [buildPrologue] at hiff
    rw [decide_eq_decide] at hiff
    have h2 := hiff.mp h
    omega
  · refine ⟨0, 0, fun hiff => ?_⟩
    simp only [buildPrologue] at hiff
    rw [decide_eq_decide] at hiff
    exact h (hiff.mpr (by omega))

/-! ### The goal index (claim C5) -/

/-- `y` is a multiple of `c` at minimal distance from `x`. -/
def IsNearestMul (c x y : ℕ) : Prop :=
  c ∣ y ∧ ∀ m : ℕ, c ∣ m → ((y : ℤ) - x).natAbs ≤ ((m : ℤ) - x).natAbs

/-- `y` is an integer at minimal distance from the fraction
`num / den`: for every integer `m`, `|y·den − num| ≤ |m·den − num|`. -/
def IsNearestInt (num den y : ℕ) : Prop :=
  ∀ m : ℤ, ((y : ℤ) * den - num).natAbs ≤ (m * den - num).natAbs

/-- The chunk rounding `(g + c/2) / c * c` of lines 318–319 produces a
nearest multiple of `c`. -/
theorem roundChunk_nearest (c g : ℕ) (hc : 0 < c) :
    IsNearestMul c g ((g + c / 2) / c * c) := by
  obtain ⟨Y, hY⟩ : ∃ Y, (g + c / 2) / c * c = Y := ⟨_, rfl⟩
  rw [hY]
  have hYm : Y = c * ((g + c / 2) / c) := by rw [← hY, Nat.mul_comm]
  have hmod := Nat.div_add_mod (g + c / 2) c
  have hmlt : (g + c / 2) % c < c := Nat.mod_lt _ hc
  have hc2 := Nat.div_add_mod c 2
  have h1 : 2 * Y ≤ 2 * g + c := by omega
  have h2 : 2 * g ≤ 2 * Y + c := by omega
  refine ⟨⟨(g + c / 2) / c, hY ▸ Nat.mul_comm _ _⟩, fun m hm => ?_⟩
  obtain ⟨a, ha⟩ := hm
  by_cases haq : a = (g + c / 2) / c
  · have hmY : m = Y := by rw [ha, haq, hYm]
    subst hmY
    omega
  · have hfar : c ≤ ((m : ℤ) - Y).natAbs := by
      have hmz : (m : ℤ) = (c : ℤ) * a := by exact_mod_cast ha
      have hYz : (Y : ℤ) = (c : ℤ) * ((g + c / 2) / c : ℕ) := by exact_mod_cast hYm
      have hdiff : (m : ℤ) - Y = (c : ℤ) * ((a : ℤ) - ((g + c / 2) / c : ℕ)) := by
        rw [hmz, hYz]
        ring
      rw [hdiff, Int.natAbs_mul, Int.natAbs_ofNat]
      have hne : 1 ≤ ((a : ℤ) - ((g + c / 2) / c : ℕ)).natAbs := by
        rcases Nat.lt_or_ge a ((g + c / 2) / c) with h | h
        · omega
        · have : a ≠ (g + c / 2) / c := haq
          omega
      calc c = c * 1 := by omega
        _ ≤ c * ((a : ℤ) - ((g + c / 2) / c : ℕ)).natAbs := Nat.mul_le_mul_left c hne
    omega

/-- The multi-machine pre-rounding goal
`(split_rank * 2 * n_points + n_peers) / n_peers / 2` of lines 314–315
is a nearest integer to the fraction `split_rank * n_points / n_peers`
of the global point count. -/
theorem goalFraction_nearest (r nPts nPeers : ℕ) (hp : 0 < nPeers) :
    IsNearestInt (r * nPts) nPeers ((r * 2 * nPts + nPeers) / nPeers / 2) := by
  have hv : (r * 2 * nPts + nPeers) / nPeers / 2 = (2 * (r * nPts) + nPeers) / (nPeers * 2) := by
    rw [Nat.div_div_eq_div_mul]
    congr 1
    ring
  intro m
  rw [hv]
  obtain ⟨V, hV⟩ : ∃ V, (2 * (r * nPts) + nPeers) / (nPeers * 2) = V := ⟨_, rfl⟩
  rw [hV]
  have hmod := Nat.div_add_mod (2 * (r * nPts) + nPeers) (nPeers * 2)
  have hmlt : (2 * (r * nPts) + nPeers) % (nPeers * 2) < nPeers * 2 :=
    Nat.mod_lt _ (by omega)
  rw [hV] at hmod
  have hz : 2 * ((V : ℤ) * nPeers) + ((2 * (r * nPts) + nPeers) % (nPeers * 2) : ℕ) =
      2 * ((r * nPts : ℕ) : ℤ) + nPeers := by
    have h := congrArg (Nat.cast : ℕ → ℤ) hmod
    push_cast at h ⊢
    linarith
  by_cases hmV : m = (V : ℤ)
  · subst hmV
    exact le_refl _
  · have hfar : (nPeers : ℕ) ≤ (m * nPeers - (V : ℤ) * nPeers).natAbs := by
      have hd : m * (nPeers : ℤ) - (V : ℤ) * nPeers = (m - V) * nPeers := by ring
      rw [hd, Int.natAbs_mul, Int.natAbs_ofNat]
      have h1 : 1 ≤ (m - (V : ℤ)).natAbs := by omega
      calc (nPeers : ℕ) = 1 * nPeers := by omega
        _ ≤ (m - (V : ℤ)).natAbs * nPeers := Nat.mul_le_mul_right _ h1
    omega

/-- C5: when a node's point count exceeds the chunk size, the goal
split index is the index midpoint `(begin+end)/2` if the rank range
holds exactly one machine, and otherwise the fraction
`split_rank / total ranks` applied to the global point count, rounded
to a nearest integer; in both cases the goal is then rounded to a
nearest multiple of the chunk size.  (`goalCol` is the goal computation
of `Split_`, lines 298–319, which runs exactly when
`node->count() > chunk_size_`.) -/
theorem claim_C5_goal_index (chunk nPoints nPeers bcol ecol brank erank : ℕ)
    (hc : 0 < chunk) (hp : 0 < nPeers) :
    ∃ g0 : ℕ,
      goalCol chunk nPoints nPeers bcol ecol brank erank =
        (g0 + chunk / 2) / chunk * chunk ∧
      (erank ≤ brank + 1 → g0 = (bcol + ecol) / 2) ∧
      (brank + 1 < erank →
        IsNearestInt (((brank + erank) / 2) * nPoints) nPeers g0) ∧
      IsNearestMul chunk g0 (goalCol chunk nPoints nPeers bcol ecol brank erank) := by
  refine ⟨if erank ≤ brank + 1 then (bcol + ecol) / 2
    else (((brank + erank) / 2) * 2 * nPoints + nPeers) / nPeers / 2,
    rfl, fun h => if_pos h, fun h => ?_, ?_⟩
  · rw [if_neg (by omega)]
    exact goalFraction_nearest _ _ _ hp
  · exact roundChunk_nearest chunk _ hc

/-- Witness for C5 at chunk 2, 16 global points, 4 machines, node
range `[0, 16)`, rank range `[0, 4)`. -/
theorem claim_C5_goal_index_witness :
    (0 : ℕ) < 2 ∧ (0 : ℕ) < 4 ∧
    (∃ g0 : ℕ,
      goalCol 2 16 4 0 16 0 4 = (g0 + 2 / 2) / 2 * 2 ∧
      ((4 : ℕ) ≤ 0 + 1 → g0 = (0 + 16) / 2) ∧
      ((0 : ℕ) + 1 < 4 → IsNearestInt (((0 + 4) / 2) * 16) 4 g0) ∧
      IsNearestMul 2 g0 (goalCol 2 16 4 0 16 0 4)) :=
  ⟨by decide, by decide, claim_C5_goal_index 2 16 4 0 16 0 4 (by decide) (by decide)⟩

/-! ### The interpolation-search loop (claim C6) -/

theorem le_sfold_self {α β : Type} [SemilatticeSup β] (g : α → β) (l : List α) (b : β) :
    b ≤ sfold g l b := by
  induction l generalizing b with
  | nil => exact le_refl _
  | cons x t ih => exact le_trans le_sup_left (ih (b ⊔ g x))

theorem sfold_le_of_mem {α β : Type} [SemilatticeSup β] (g : α → β) {l : List α}
    {x : α} (hx : x ∈ l) (b : β) : g x ≤ sfold g l b := by
  induction l generalizing b with
  | nil => cases hx
  | cons y t ih =>
    rcases List.mem_cons.mp hx with h | h
    · exact le_trans (h ▸ le_sup_right) (le_sfold_self g t (b ⊔ g y))
    · exact ih h _

theorem mem_pts {α : Type} (s : ℕ → α) (a b k : ℕ) (h1 : a ≤ k) (h2 : k < b) :
    s k ∈ pts s a b := by
  refine List.mem_map.mpr ⟨k - a, List.mem_range.mpr (by omega), ?_⟩
  congr 1
  omega

/-- Every point of the range lies inside the range's bounding box. -/
theorem bbox_mem (s : Store) (a b k sd : ℕ) (h1 : a ≤ k) (h2 : k < b) :
    (bboxRange s a b sd).lo ≤ s k sd ∧ s k sd ≤ (bboxRange s a b sd).hi := by
  have h := sfold_le_of_mem pointBox (mem_pts s a b k h1 h2) emptyB
  exact ⟨(h sd).1, (h sd).2⟩

/-- The low end of a join-fold of point boxes is either the initial low
end or an actual coordinate of the list. -/
theorem sfold_lo_mem (l : List Vec) (c : HBound) (sd : ℕ) :
    (sfold pointBox l c sd).lo = (c sd).lo ∨
    ∃ v ∈ l, (sfold pointBox l c sd).lo = v sd := by
  induction l generalizing c with
  | nil => exact Or.inl rfl
  | cons x t ih =>
    rw [sfold_cons]
    rcases ih (c ⊔ pointBox x) with h | ⟨v, hv, hveq⟩
    · have : ((c ⊔ pointBox x) sd).lo = min (c sd).lo (x sd) := rfl
      rw [this] at h
      rcases min_cases (c sd).lo (x sd) with ⟨heq, _⟩ | ⟨heq, _⟩
      · exact Or.inl (by rw [h, heq])
      · exact Or.inr ⟨x, List.mem_cons_self _ _, by rw [h, heq]⟩
    · exact Or.inr ⟨v, List.mem_cons_of_mem _ hv, hveq⟩

theorem sfold_hi_mem (l : List Vec) (c : HBound) (sd : ℕ) :
    (sfold pointBox l c sd).hi = (c sd).hi ∨
    ∃ v ∈ l, (sfold pointBox l c sd).hi = v sd := by
  induction l generalizing c with
  | nil => exact Or.inl rfl
  | cons x t ih =>
    rw [sfold_cons]
    rcases ih (c ⊔ pointBox x) with h | ⟨v, hv, hveq⟩
    · have : ((c ⊔ pointBox x) sd).hi = max (c sd).hi (x sd) := rfl
      rw [this] at h
      rcases max_cases (c sd).hi (x sd) with ⟨heq, _⟩ | ⟨heq, _⟩
      · exact Or.inl (by rw [h, heq])
      · exact Or.inr ⟨x, List.mem_cons_self _ _, by rw [h, heq]⟩
    · exact Or.inr ⟨v, List.mem_cons_of_mem _ hv, hveq⟩

/-- A nonempty range whose coordinates stay below the sentinel attains
the low end of its bounding box. -/
theorem bbox_lo_attained (s : Store) (a b sd : ℕ) (hab : a < b)
    (hbd : ∀ k, a ≤ k → k < b → s k sd < dblMaxQ) :
    ∃ k, a ≤ k ∧ k < b ∧ s k sd = (bboxRange s a b sd).lo := by
  rcases sfold_lo_mem (pts s a b) emptyB sd with h | ⟨v, hv, hveq⟩
  · exfalso
    have hle := (bbox_mem s a b a sd (le_refl _) hab).1
    rw [bboxRange] at *
    rw [h] at hle
    exact absurd (lt_of_le_of_lt hle (hbd a (le_refl _) hab)) (lt_irrefl _)
  · obtain ⟨i, hi, hieq⟩ := List.mem_map.mp hv
    have hir := List.mem_range.mp hi
    exact ⟨a + i, by omega, by omega, by rw [hieq, bboxRange, hveq]⟩

theorem bbox_hi_attained (s : Store) (a b sd : ℕ) (hab : a < b)
    (hbd : ∀ k, a ≤ k → k < b → -dblMaxQ < s k sd) :
    ∃ k, a ≤ k ∧ k < b ∧ s k sd = (bboxRange s a b sd).hi := by
  rcases sfold_hi_mem (pts s a b) emptyB sd with h | ⟨v, hv, hveq⟩
  · exfalso
    have hle := (bbox_mem s a b a sd (le_refl _) hab).2
    rw [bboxRange] at *
    rw [h] at hle
    exact absurd (lt_of_lt_of_le (hbd a (le_refl _) hab) hle) (by
      have : (emptyB sd).hi = -dblMaxQ := rfl
      rw [this]
      exact lt_irrefl _)
  · obtain ⟨i, hi, hieq⟩ := List.mem_map.mp hv
    have hir := List.mem_range.mp hi
    exact ⟨a + i, by omega, by omega, by rw [hieq, bboxRange, hveq]⟩

theorem perm_symm_window {σ : Equiv.Perm ℕ} {a b : ℕ}
    (hfix : ∀ k, k < a ∨ b ≤ k → σ k = k) (k0 : ℕ) (h1 : a ≤ k0) (h2 : k0 < b) :
    (a ≤ σ.symm k0 ∧ σ.symm k0 < b) ∧ σ (σ.symm k0) = k0 := by
  have happ := σ.apply_symm_apply k0
  constructor
  · by_contra h
    have hout : σ.symm k0 < a ∨ b ≤ σ.symm k0 := by omega
    have heq := hfix _ hout
    rw [heq] at happ
    omega
  · exact happ

/-- The bounding box of a range of points all sharing coordinate `c`
on axis `sd` (with `c` inside the sentinel interval) is `[c, c]`. -/
theorem bbox_const (s : Store) (a b sd : ℕ) (hab : a < b) (c : ℚ)
    (hc1 : -dblMaxQ < c) (hc2 : c < dblMaxQ)
    (hconst : ∀ k, a ≤ k → k < b → s k sd = c) :
    bboxRange s a b sd = ⟨c, c⟩ := by
  have hmem := bbox_mem s a b a sd (le_refl _) hab
  rw [hconst a (le_refl _) hab] at hmem
  have hlo : (bboxRange s a b sd).lo = c := by
    rcases sfold_lo_mem (pts s a b) emptyB sd with h | ⟨v, hv, hveq⟩
    · exfalso
      have h2 : (bboxRange s a b sd).lo = dblMaxQ := h
      have h3 := hmem.1
      rw [h2] at h3
      linarith
    · obtain ⟨i, hi, hieq⟩ := List.mem_map.mp hv
      have hir := List.mem_range.mp hi
      have h2 : (bboxRange s a b sd).lo = v sd := hveq
      rw [h2, ← hieq]
      exact hconst (a + i) (by omega) (by omega)
  have hhi : (bboxRange s a b sd).hi = c := by
    rcases sfold_hi_mem (pts s a b) emptyB sd with h | ⟨v, hv, hveq⟩
    · exfalso
      have h2 : (bboxRange s a b sd).hi = -dblMaxQ := h
      have h3 := hmem.2
      rw [h2] at h3
      linarith
    · obtain ⟨i, hi, hieq⟩ := List.mem_map.mp hv
      have hir := List.mem_range.mp hi
      have h2 : (bboxRange s a b sd).hi = v sd := hveq
      rw [h2, ← hieq]
      exact hconst (a + i) (by omega) (by omega)
  cases hbb : bboxRange s a b sd
  rw [hbb] at hlo hhi
  simp only [DRange.mk.injEq]
  exact ⟨hlo, hhi⟩
/-- Specification of a non-exiting iteration of the interpolation
loop: the continuation state's value interval is the exact bounding box
of its working range on the split axis, the goal stays inside the
working range, the working range only narrows, coordinate boundedness
is preserved — and if the incoming interval was already the exact
bounding box of the incoming range, the range strictly shrinks. -/
theorem splitStep_inr_spec (sd goal : ℕ) (st st' : SplitState)
    (hres : splitStep sd goal st = .inr st')
    (hgoal1 : st.bcol ≤ goal) (hgoal2 : goal ≤ st.ecol)
    (hbd : ∀ k, st.bcol ≤ k → k < st.ecol →
      -dblMaxQ < st.store k sd ∧ st.store k sd < dblMaxQ) :
    st'.crange = bboxRange st'.store st'.bcol st'.ecol sd ∧
    st'.bcol ≤ goal ∧ goal ≤ st'.ecol ∧
    st.bcol ≤ st'.bcol ∧ st'.ecol ≤ st.ecol ∧
    (∀ k, st'.bcol ≤ k → k < st'.ecol →
      -dblMaxQ < st'.store k sd ∧ st'.store k sd < dblMaxQ) ∧
    (st.crange = bboxRange st.store st.bcol st.ecol sd →
      st'.ecol - st'.bcol < st.ecol - st.bcol) := by
  have hble : st.bcol ≤ st.ecol := le_trans hgoal1 hgoal2
  have hsum : st.bcol + (st.ecol - st.bcol) = st.ecol := by omega
  simp only [splitStep] at hres
  rcases hP : Partition
      (fun v : Vec => decide (v sd <
        dInterp st.crange (((goal : ℚ) - (st.bcol : ℚ)) / ((st.ecol : ℚ) - (st.bcol : ℚ)))))
      (fun acc a => acc ⊔ pointBox a)
      st.bcol (st.ecol - st.bcol) st.store emptyB emptyB with ⟨scol, store', lbv, rbv⟩
  rw [hP] at hres
  dsimp only at hres
  obtain ⟨⟨hsp1, hsp2⟩, houtside, ⟨σ, hσ1, hσ2⟩, hL, hR⟩ :=
    Partition_spec
      (fun v : Vec => decide (v sd <
        dInterp st.crange (((goal : ℚ) - (st.bcol : ℚ)) / ((st.ecol : ℚ) - (st.bcol : ℚ)))))
      (fun acc a => acc ⊔ pointBox a)
      st.bcol (st.ecol - st.bcol) st.store emptyB emptyB scol store' lbv rbv hP
  obtain ⟨hlb, hrb⟩ :=
    Partition_bounds
      (fun v : Vec => decide (v sd <
        dInterp st.crange (((goal : ℚ) - (st.bcol : ℚ)) / ((st.ecol : ℚ) - (st.bcol : ℚ)))))
      pointBox
      st.bcol (st.ecol - st.bcol) st.store emptyB emptyB scol store' lbv rbv hP
  rw [hsum] at hsp2 hR hσ2 houtside hrb
  split at hres
  · exact absurd hres (by simp)
  · rename_i hne
    split at hres
    · rename_i hlt
      split at hres
      · exact absurd hres (by simp)
      · rename_i hwid
        -- undershoot, continue: st' = ⟨store', scol, st.ecol, rbv sd, fl ⊔ lbv, fr⟩
        injection hres with hst'
        subst hst'
        dsimp only
        have hblt : st.bcol < st.ecol := by
          rcases Nat.eq_or_lt_of_le hble with he | h
          · exact absurd (by omega) hne
          · exact h
        refine ⟨?_, by omega, hgoal2, hsp1, le_refl _, ?_, ?_⟩
        · -- tightness of the continuation interval
          rw [hrb]
          rfl
        · -- boundedness
          intro k hk1 hk2
          rw [hσ1 k]
          have hw := perm_window_closed hσ2 k (by omega) (by omega)
          exact hbd (σ k) (by omega) (by omega)
        · -- strict shrink from a tight incoming interval
          intro htight
          by_contra hshr
          have hscol : scol = st.bcol := by omega
          obtain ⟨k0, hk01, hk02, hk0⟩ := bbox_lo_attained st.store st.bcol st.ecol sd hblt
            (fun k h1 h2 => (hbd k h1 h2).2)
          obtain ⟨⟨hj1, hj2⟩, hjap⟩ := perm_symm_window hσ2 k0 hk01 hk02
          have hfail := hR (σ.symm k0) (by omega) (by omega)
          rw [hσ1 (σ.symm k0), hjap] at hfail
          rw [decide_eq_false_iff_not] at hfail
          have hsvle : dInterp st.crange
              (((goal : ℚ) - (st.bcol : ℚ)) / ((st.ecol : ℚ) - (st.bcol : ℚ))) ≤
              st.store k0 sd := le_of_not_lt hfail
          have hts : (0 : ℚ) <
              ((goal : ℚ) - (st.bcol : ℚ)) / ((st.ecol : ℚ) - (st.bcol : ℚ)) := by
            apply div_pos
            · have h1 : st.bcol < goal := by omega
              have h2 : (st.bcol : ℚ) < (goal : ℚ) := by exact_mod_cast h1
              linarith
            · have h2 : (st.bcol : ℚ) < (st.ecol : ℚ) := by exact_mod_cast hblt
              linarith
          rw [htight] at hsvle
          simp only [dInterp] at hsvle
          rw [hk0] at hsvle
          have hmm := bbox_mem st.store st.bcol st.ecol st.bcol sd (le_refl _) hblt
          have hhieq : (bboxRange st.store st.bcol st.ecol sd).hi =
              (bboxRange st.store st.bcol st.ecol sd).lo := by
            nlinarith [hmm.1, hmm.2]
          have hconst : ∀ k, st.bcol ≤ k → k < st.ecol →
              st.store k sd = (bboxRange st.store st.bcol st.ecol sd).lo := by
            intro k h1 h2
            have h := bbox_mem st.store st.bcol st.ecol k sd h1 h2
            have h3 := h.2
            rw [hhieq] at h3
            linarith [h.1]
          have hconst' : ∀ k, st.bcol ≤ k → k < st.ecol →
              store' k sd = (bboxRange st.store st.bcol st.ecol sd).lo := by
            intro k h1 h2
            rw [hσ1 k]
            have hw := perm_window_closed hσ2 k h1 h2
            exact hconst (σ k) hw.1 hw.2
          have hB0 : -dblMaxQ < (bboxRange st.store st.bcol st.ecol sd).lo ∧
              (bboxRange st.store st.bcol st.ecol sd).lo < dblMaxQ := by
            have h := hbd k0 hk01 hk02
            rw [hk0] at h
            exact h
          have hcc := bbox_const store' st.bcol st.ecol sd hblt _ hB0.1 hB0.2 hconst'
          apply hwid
          rw [hrb, hscol]
          have hfin : bboxRange store' st.bcol st.ecol sd =
              ⟨(bboxRange st.store st.bcol st.ecol sd).lo,
               (bboxRange st.store st.bcol st.ecol sd).lo⟩ := hcc
          show dWid (bboxRange store' st.bcol st.ecol sd) = 0
          rw [hfin]
          show (bboxRange st.store st.bcol st.ecol sd).lo -
            (bboxRange st.store st.bcol st.ecol sd).lo = 0
          ring
    · rename_i hnlt
      split at hres
      · exact absurd hres (by simp)
      · rename_i hwid
        -- overshoot, continue: st' = ⟨store', st.bcol, scol, lbv sd, fl, fr ⊔ rbv⟩
        injection hres with hst'
        subst hst'
        dsimp only
        have hgt : goal < scol := by omega
        refine ⟨?_, hgoal1, by omega, le_refl _, by omega, ?_, ?_⟩
        · -- tightness of the continuation interval
          rw [hlb]
          rfl
        · -- boundedness
          intro k hk1 hk2
          rw [hσ1 k]
          have hw := perm_window_closed hσ2 k (by omega) (by omega)
          exact hbd (σ k) (by omega) (by omega)
        · -- strict shrink from a tight incoming interval
          intro htight
          by_contra hshr
          have hscol : scol = st.ecol := by omega
          have hblt : st.bcol < st.ecol := by
            rcases Nat.eq_or_lt_of_le hble with he | h
            · exact absurd (by omega) hne
            · exact h
          obtain ⟨k0, hk01, hk02, hk0⟩ := bbox_hi_attained st.store st.bcol st.ecol sd hblt
            (fun k h1 h2 => (hbd k h1 h2).1)
          obtain ⟨⟨hj1, hj2⟩, hjap⟩ := perm_symm_window hσ2 k0 hk01 hk02
          have hpass := hL (σ.symm k0) (by omega) (by omega)
          rw [hσ1 (σ.symm k0), hjap] at hpass
          rw [decide_eq_true_eq] at hpass
          have hts : ((goal : ℚ) - (st.bcol : ℚ)) / ((st.ecol : ℚ) - (st.bcol : ℚ)) ≤ 1 := by
            rw [div_le_one (by
              have h2 : (st.bcol : ℚ) < (st.ecol : ℚ) := by exact_mod_cast hblt
              linarith)]
            have h2 : (goal : ℚ) ≤ (st.ecol : ℚ) := by exact_mod_cast hgoal2
            linarith
          rw [htight] at hpass
          simp only [dInterp] at hpass
          rw [hk0] at hpass
          have hmm := bbox_mem st.store st.bcol st.ecol st.bcol sd (le_refl _) hblt
          nlinarith [hmm.1, hmm.2, hts, hpass]

/-- From a state whose value interval is the exact bounding box of the
working range and whose goal lies inside it, the loop finishes within
`count + 1` further iterations: every such non-exiting iteration
strictly shrinks the working range and re-establishes tightness. -/
theorem splitSearch_tight_terminates (sd goal : ℕ) :
    ∀ cnt : ℕ, ∀ st : SplitState, st.ecol - st.bcol ≤ cnt →
      st.crange = bboxRange st.store st.bcol st.ecol sd →
      st.bcol ≤ goal → goal ≤ st.ecol →
      (∀ k, st.bcol ≤ k → k < st.ecol →
        -dblMaxQ < st.store k sd ∧ st.store k sd < dblMaxQ) →
      ∀ n, cnt + 1 ≤ n → (splitSearch sd goal n st).isSome = true := by
  intro cnt
  induction cnt with
  | zero =>
    intro st hcnt htight hg1 hg2 hbd n hn
    match n, hn with
    | n + 1, _ =>
      rw [splitSearch]
      cases hstep : splitStep sd goal st with
      | inl d => rfl
      | inr st' =>
        exfalso
        have h := splitStep_inr_spec sd goal st st' hstep hg1 hg2 hbd
        have h2 := h.2.2.2.2.2.2 htight
        omega
  | succ cnt ih =>
    intro st hcnt htight hg1 hg2 hbd n hn
    match n, hn with
    | n + 1, _ =>
      rw [splitSearch]
      cases hstep : splitStep sd goal st with
      | inl d => rfl
      | inr st' =>
        obtain ⟨ht', hg1', hg2', _, _, hbd', hshrink⟩ :=
          splitStep_inr_spec sd goal st st' hstep hg1 hg2 hbd
        have hsh := hshrink htight
        exact ih st' (by omega) ht' hg1' hg2' hbd' n (by omega)

/-- C6 amended: for every loop state whose goal index lies inside the
working range and whose coordinates on the split axis are within the
sentinel interval, (a) a non-exiting iteration strictly shrinks the
working index range whenever the current value interval is exactly the
bounding box of the working range on the split axis — which holds for
every iteration after the first, since each continuation re-derives its
interval from the partition's observed bounds — and (b) the loop
terminates within `count + 2` iterations.  (The claim as stated, which
asserts the shrink for *every* non-exiting iteration, fails on the
first iteration when the node's bound is wider than its points; see the
counterexample.) -/
theorem claim_C6_loop_termination (sd goal : ℕ) (st : SplitState)
    (hgoal1 : st.bcol ≤ goal) (hgoal2 : goal ≤ st.ecol)
    (hbd : ∀ k, st.bcol ≤ k → k < st.ecol →
      -dblMaxQ < st.store k sd ∧ st.store k sd < dblMaxQ) :
    (∀ st', splitStep sd goal st = .inr st' →
      st.crange = bboxRange st.store st.bcol st.ecol sd →
      st'.ecol - st'.bcol < st.ecol - st.bcol) ∧
    (∀ st', splitStep sd goal st = .inr st' →
      st'.crange = bboxRange st'.store st'.bcol st'.ecol sd) ∧
    (splitSearch sd goal (st.ecol - st.bcol + 2) st).isSome = true := by
  refine ⟨fun st' hstep htight =>
      (splitStep_inr_spec sd goal st st' hstep hgoal1 hgoal2 hbd).2.2.2.2.2.2 htight,
    fun st' hstep =>
      (splitStep_inr_spec sd goal st st' hstep hgoal1 hgoal2 hbd).1, ?_⟩
  rw [splitSearch]
  cases hstep : splitStep sd goal st with
  | inl d => rfl
  | inr st' =>
    obtain ⟨ht', hg1', hg2', hb1, hb2, hbd', _⟩ :=
      splitStep_inr_spec sd goal st st' hstep hgoal1 hgoal2 hbd
    exact splitSearch_tight_terminates sd goal (st'.ecol - st'.bcol) st' (le_refl _)
      ht' hg1' hg2' hbd' (st.ecol - st.bcol + 1) (by omega)

/-- View of one loop step used by the C6 counterexample: `none` when
the iteration exits the loop, otherwise the continuation's working
range. -/
def stepView : SplitDone ⊕ SplitState → Option (ℕ × ℕ)
  | .inl _ => none
  | .inr st => some (st.bcol, st.ecol)

/-- Counterexample to C6 as stated: at the loop state with points
`50, 51, 52` on `[0, 3)`, goal index 2 and current value interval
`[0, 100]` (the node's bound, wider than the points — as produced for
real nodes by the forced-split path, which merges a degenerate group
into both children's bounds), the interpolated split value `200/3`
sends all three points left, the partition returns 3 ≠ 2, the observed
left interval `[50, 52]` has nonzero width, and the iteration continues
with the working range still `[0, 3)`: it neither exits nor shrinks. -/
theorem claim_C6_nonshrink_counterexample :
    stepView (splitStep 0 2 ⟨lineStore [50, 51, 52], 0, 3, ⟨0, 100⟩, emptyB, emptyB⟩) =
      some (0, 3) := by
  with_unfolding_all rfl

/-- Witness for the amended C6 at a concrete state: three points equal
to 0 on `[0, 3)`, goal 2. -/
theorem claim_C6_loop_termination_witness :
    ((0 : ℕ) ≤ 2 ∧ (2 : ℕ) ≤ 3) ∧
    ((∀ st', splitStep 0 2 ⟨fun _ _ => 0, 0, 3, ⟨0, 0⟩, emptyB, emptyB⟩ = .inr st' →
        (⟨fun _ _ => 0, 0, 3, ⟨0, 0⟩, emptyB, emptyB⟩ : SplitState).crange =
          bboxRange (fun _ _ => 0) 0 3 0 →
        st'.ecol - st'.bcol < 3 - 0) ∧
      (∀ st', splitStep 0 2 ⟨fun _ _ => 0, 0, 3, ⟨0, 0⟩, emptyB, emptyB⟩ = .inr st' →
        st'.crange = bboxRange st'.store st'.bcol st'.ecol 0) ∧
      (splitSearch 0 2 (3 - 0 + 2)
        ⟨fun _ _ => 0, 0, 3, ⟨0, 0⟩, emptyB, emptyB⟩).isSome = true) :=
  ⟨⟨by decide, by decide⟩,
   claim_C6_loop_termination 0 2 ⟨fun _ _ => 0, 0, 3, ⟨0, 0⟩, emptyB, emptyB⟩
     (by decide) (by decide)
     (fun k _ _ => by
       constructor
       · show -dblMaxQ < 0
         rw [dblMaxQ]
         norm_num
       · show (0 : ℚ) < dblMaxQ
         rw [dblMaxQ]
         norm_num)⟩
/-- Inversion of one successful `Build_` call: it is either a leaf
(count within leaf size) with the leaf output, or a split with the
non-leaf output assembled from a successful `Split_`. -/
theorem Build_inversion {σ : Type} (C : BuildCtx σ)
    (fuel : ℕ) (store : Store) (bcol ecol brank erank : ℕ) (bound : HBound)
    (pb : Option ℕ) (wd : Bool) (out : BuildOut σ)
    (hres : Build_ C (fuel + 1) store bcol ecol brank erank bound pb wd = some out) :
    (ecol - bcol ≤ C.leafSize ∧
      out = ⟨.leaf bcol ecol (emptyB ⊔ bound)
          (C.post (leafStat C store bcol ecol) (emptyB ⊔ bound) (ecol - bcol)),
        store, [],
        if wd then some (.dleaf brank erank bcol ecol) else none,
        leafStat C store bcol ecol⟩) ∨
    (C.leafSize < ecol - bcol ∧ ∃ sd so,
      findSplitDim C.dim (emptyB ⊔ bound) = some sd ∧
      Split_ C (Build_ C fuel) fuel store bcol ecol (emptyB ⊔ bound) brank erank sd pb =
        some so ∧
      out = ⟨.node bcol ecol (emptyB ⊔ bound)
          (C.post (C.accChild (C.accChild C.statInit so.out0.preStat
              (treeBound so.out0.tree) (treeCount so.out0.tree)) so.out1.preStat
              (treeBound so.out1.tree) (treeCount so.out1.tree))
            (emptyB ⊔ bound) (ecol - bcol))
          so.out0.tree so.out1.tree,
        so.out1.store,
        so.transfer ++ so.out0.events ++ so.out1.events,
        if wd then some (mkDecomp brank erank bcol ecol so.out0.decomp so.out1.decomp)
        else none,
        C.accChild (C.accChild C.statInit so.out0.preStat
          (treeBound so.out0.tree) (treeCount so.out0.tree)) so.out1.preStat
          (treeBound so.out1.tree) (treeCount so.out1.tree)⟩) := by
  simp only [Build_] at hres
  split at hres
  · rename_i hleaf
    left
    refine ⟨hleaf, ?_⟩
    injection hres with h
    exact h.symm
  · rename_i hnl
    right
    refine ⟨by omega, ?_⟩
    split at hres
    · exact absurd hres (by simp)
    · rename_i sd hfd
      split at hres
      · exact absurd hres (by simp)
      · rename_i so hsp
        refine ⟨sd, so, hfd, hsp, ?_⟩
        injection hres with h
        exact h.symm

/-- Inversion of one successful `Split_` call: the split-point
computation succeeded through one of its three paths (zero-width-axis
index midpoint, single value partition, or the interpolation loop),
and both child builds succeeded on the resulting ranges. -/
theorem Split_inversion {σ : Type} (C : BuildCtx σ)
    (buildChild : Store → ℕ → ℕ → ℕ → ℕ → HBound → Option ℕ → Bool → Option (BuildOut σ))
    (sfuel : ℕ) (store : Store) (nodeB nodeE : ℕ) (nodeBound : HBound)
    (brank erank splitDim : ℕ) (parentBegin : Option ℕ) (so : SplitOut σ)
    (hres : Split_ C buildChild sfuel store nodeB nodeE nodeBound brank erank splitDim
      parentBegin = some so) :
    ∃ d : SplitDone,
      ((nodeE - nodeB ≤ C.chunkSize ∧ dWid (nodeBound splitDim) = 0 ∧
          d = ⟨(nodeB + nodeE) / 2, nodeB, nodeE, emptyB, emptyB, store⟩) ∨
       (nodeE - nodeB ≤ C.chunkSize ∧ ¬dWid (nodeBound splitDim) = 0 ∧
          d = ⟨(Partition (fun v : Vec => decide (v splitDim < dMid (nodeBound splitDim)))
                (fun acc a => acc ⊔ pointBox a) nodeB (nodeE - nodeB) store emptyB emptyB).1,
              nodeB, nodeE,
              (Partition (fun v : Vec => decide (v splitDim < dMid (nodeBound splitDim)))
                (fun acc a => acc ⊔ pointBox a) nodeB (nodeE - nodeB) store emptyB emptyB).2.2.1,
              (Partition (fun v : Vec => decide (v splitDim < dMid (nodeBound splitDim)))
                (fun acc a => acc ⊔ pointBox a) nodeB (nodeE - nodeB) store emptyB emptyB).2.2.2,
              (Partition (fun v : Vec => decide (v splitDim < dMid (nodeBound splitDim)))
                (fun acc a => acc ⊔ pointBox a) nodeB (nodeE - nodeB) store emptyB emptyB).2.1⟩) ∨
       (C.chunkSize < nodeE - nodeB ∧
          splitSearch splitDim (goalCol C.chunkSize C.nPoints C.nPeers nodeB nodeE brank erank)
            sfuel ⟨store, nodeB, nodeE, nodeBound splitDim, emptyB, emptyB⟩ = some d)) ∧
      buildChild d.store d.bcol d.splitCol brank ((brank + erank) / 2) d.fl
        (some nodeB) (decide (1 < erank - brank)) = some so.out0 ∧
      buildChild so.out0.store d.splitCol d.ecol ((brank + erank) / 2) erank d.fr
        (some nodeB) (decide (1 < erank - brank)) = some so.out1 ∧
      so.transfer = (if nodeB &&& (C.chunkSize - 1) = 0 ∧ parentBegin ≠ some nodeB then
        [(nodeB / C.chunkSize, brank)] else []) := by
  simp only [Split_] at hres
  split at hres
  · exact absurd hres (by simp)
  · rename_i d hstep
    refine ⟨d, ?_, ?_⟩
    · -- classify the split-point computation
      split at hstep
      · rename_i hcs
        split at hstep
        · rename_i hw0
          injection hstep with h
          exact Or.inl ⟨hcs, hw0, h.symm⟩
        · rename_i hw0
          injection hstep with h
          exact Or.inr (Or.inl ⟨hcs, hw0, h.symm⟩)
      · rename_i hcs
        exact Or.inr (Or.inr ⟨by omega, hstep⟩)
    · -- the two child builds and the transfer record
      split at hres
      · exact absurd hres (by simp)
      · rename_i o0 hc0
        split at hres
        · exact absurd hres (by simp)
        · rename_i o1 hc1
          injection hres with h
          subst h
          exact ⟨hc0, hc1, rfl⟩
/-- A left join-fold over an appended list folds the second list over the
result of the first. -/
theorem sfold_append {α β : Type} [SemilatticeSup β] (g : α → β) (l1 l2 : List α) (c : β) :
    sfold g (l1 ++ l2) c = sfold g l2 (sfold g l1 c) := by
  unfold sfold
  rw [List.foldl_append]

/-- A point window splits at any interior index. -/
theorem pts_append {α : Type} (s : ℕ → α) (a m : ℕ) (ham : a ≤ m) :
    ∀ b, m ≤ b → pts s a b = pts s a m ++ pts s m b := by
  intro b hmb
  induction b, hmb using Nat.le_induction with
  | base => rw [pts_empty s m m (le_refl m), List.append_nil]
  | succ b hmb ih =>
    rw [pts_snoc s a b (by omega), pts_snoc s m b hmb, ih, List.append_assoc]

/-- A join-fold from one initial value is dominated by that value joined
with the fold from any other initial value. -/
theorem sfold_init_le {α β : Type} [SemilatticeSup β] (g : α → β) (l : List α) :
    ∀ x y : β, sfold g l x ≤ x ⊔ sfold g l y := by
  induction l with
  | nil => intro x y; exact le_sup_left
  | cons a l ih =>
    intro x y
    rw [sfold_cons, sfold_cons]
    have h1 : g a ≤ sfold g l (y ⊔ g a) :=
      le_trans le_sup_right (le_sfold_self g l (y ⊔ g a))
    exact le_trans (ih (x ⊔ g a) (y ⊔ g a))
      (sup_le (sup_le le_sup_left (le_trans h1 le_sup_right)) le_sup_right)

/-- Join-folds are invariant under permutation of the list. -/
theorem sfold_perm {α β : Type} [SemilatticeSup β] (g : α → β) {l1 l2 : List α}
    (h : l1.Perm l2) : ∀ c : β, sfold g l1 c = sfold g l2 c := by
  induction h with
  | nil => intro c; rfl
  | cons x _ ih => intro c; rw [sfold_cons, sfold_cons, ih]
  | swap x y l => intro c; rw [sfold_cons, sfold_cons, sfold_cons, sfold_cons, sup_right_comm]
  | trans _ _ ih1 ih2 => intro c; rw [ih1, ih2]

/-- Reading a window of a store through a permutation that fixes
everything outside the window yields a permutation of the window's
points. -/
theorem pts_perm_window {α : Type} (s : ℕ → α) (σp : Equiv.Perm ℕ) (a b : ℕ)
    (hfix : ∀ k, k < a ∨ b ≤ k → σp k = k) :
    (pts (fun i => s (σp i)) a b).Perm (pts s a b) := by
  have hwin := perm_window_closed hfix
  have hL1 : pts (fun i => s (σp i)) a b =
      (((List.range (b - a)).map (fun i => a + i)).map (fun j => σp j)).map s := by
    unfold pts
    rw [List.map_map, List.map_map]
    rfl
  have hL2 : pts s a b = ((List.range (b - a)).map (fun i => a + i)).map s := by
    unfold pts
    rw [List.map_map]
    rfl
  set L := (List.range (b - a)).map (fun i => a + i) with hLdef
  have hmemL : ∀ k, k ∈ L ↔ a ≤ k ∧ k < b := by
    intro k
    rw [hLdef]
    simp only [List.mem_map, List.mem_range]
    constructor
    · rintro ⟨i, hi, rfl⟩
      omega
    · intro hk
      exact ⟨k - a, by omega, by omega⟩
  have hinj1 : Function.Injective (fun i : ℕ => a + i) := fun x y hxy => Nat.add_left_cancel hxy
  have hnodL : L.Nodup := by
    rw [hLdef]
    exact (List.nodup_range _).map hinj1
  have hnodL2 : (L.map (fun j => σp j)).Nodup :=
    hnodL.map (fun x y hxy => σp.injective hxy)
  have htf : (L.map (fun j => σp j)).toFinset = L.toFinset := by
    ext x
    simp only [List.mem_toFinset, List.mem_map]
    constructor
    · rintro ⟨j, hj, rfl⟩
      have hj2 := (hmemL j).mp hj
      have hw := hwin j hj2.1 hj2.2
      exact (hmemL (σp j)).mpr ⟨hw.1, hw.2⟩
    · intro hx
      have hx2 := (hmemL x).mp hx
      obtain ⟨⟨h1, h2⟩, h3⟩ := perm_symm_window hfix x hx2.1 hx2.2
      exact ⟨σp.symm x, (hmemL _).mpr ⟨h1, h2⟩, h3⟩
  have hperm : (L.map (fun j => σp j)).Perm L :=
    List.perm_of_nodup_nodup_toFinset_eq hnodL2 hnodL htf
  rw [hL1, hL2]
  exact hperm.map s

/-- The bounding box of a window is unchanged by a store permutation
that fixes everything outside the window. -/
theorem bbox_perm (s : Store) (σp : Equiv.Perm ℕ) (a b : ℕ)
    (hfix : ∀ k, k < a ∨ b ≤ k → σp k = k) :
    bboxRange (fun i => s (σp i)) a b = bboxRange s a b :=
  sfold_perm pointBox (pts_perm_window s σp a b hfix) emptyB

/-- The bounding box of a window only depends on the store inside it. -/
theorem bbox_congr (s1 s2 : Store) (a b : ℕ)
    (h : ∀ k, a ≤ k → k < b → s1 k = s2 k) : bboxRange s1 a b = bboxRange s2 a b := by
  unfold bboxRange
  rw [pts_congr s1 s2 a b h]

/-- Extending a window upward grows its bounding box. -/
theorem bbox_le_extend_hi (s : Store) (a m b : ℕ) (ham : a ≤ m) (hmb : m ≤ b) :
    bboxRange s a m ≤ bboxRange s a b := by
  unfold bboxRange
  rw [pts_append s a m ham b hmb, sfold_append]
  exact le_sfold_self _ _ _

/-- The bounding box of a window is dominated by the join of the boxes
of its two halves. -/
theorem bbox_le_pair (s : Store) (a m b : ℕ) (ham : a ≤ m) (hmb : m ≤ b) :
    bboxRange s a b ≤ bboxRange s a m ⊔ bboxRange s m b := by
  unfold bboxRange
  rw [pts_append s a m ham b hmb, sfold_append]
  exact sfold_init_le pointBox (pts s m b) _ _

/-- Shrinking a window from below keeps its bounding box inside the
larger one, up to the empty sentinel. -/
theorem bbox_shrink_lo (s : Store) (a m b : ℕ) (ham : a ≤ m) (hmb : m ≤ b) :
    bboxRange s m b ≤ emptyB ⊔ bboxRange s a b := by
  unfold bboxRange
  rw [pts_append s a m ham b hmb, sfold_append]
  exact sfold_init_le pointBox (pts s m b) _ _
/-- Specification of an exiting iteration of the interpolation loop:
the split column is the goal, the working range is unchanged, the store
is permuted only inside the working range, and each final bound covers
the bounding box of the corresponding side of the goal (up to the
freshly reset empty bound). -/
theorem splitStep_inl_spec (sd goal : ℕ) (st : SplitState) (d : SplitDone)
    (hres : splitStep sd goal st = .inl d)
    (hgoal1 : st.bcol ≤ goal) (hgoal2 : goal ≤ st.ecol) :
    d.splitCol = goal ∧ d.bcol = st.bcol ∧ d.ecol = st.ecol ∧
    (∃ σp : Equiv.Perm ℕ, (∀ k, k < st.bcol ∨ st.ecol ≤ k → σp k = k) ∧
      d.store = fun i => st.store (σp i)) ∧
    bboxRange d.store d.bcol goal ≤ emptyB ⊔ d.fl ∧
    bboxRange d.store goal d.ecol ≤ emptyB ⊔ d.fr := by
  have hsum : st.bcol + (st.ecol - st.bcol) = st.ecol := by omega
  simp only [splitStep] at hres
  rcases hP : Partition
      (fun v : Vec => decide (v sd <
        dInterp st.crange (((goal : ℚ) - (st.bcol : ℚ)) / ((st.ecol : ℚ) - (st.bcol : ℚ)))))
      (fun acc a => acc ⊔ pointBox a)
      st.bcol (st.ecol - st.bcol) st.store emptyB emptyB with ⟨scol, store', lbv, rbv⟩
  rw [hP] at hres
  dsimp only at hres
  obtain ⟨⟨hsp1, hsp2⟩, houtside, ⟨σ, hσ1, hσ2⟩, hL, hR⟩ :=
    Partition_spec
      (fun v : Vec => decide (v sd <
        dInterp st.crange (((goal : ℚ) - (st.bcol : ℚ)) / ((st.ecol : ℚ) - (st.bcol : ℚ)))))
      (fun acc a => acc ⊔ pointBox a)
      st.bcol (st.ecol - st.bcol) st.store emptyB emptyB scol store' lbv rbv hP
  obtain ⟨hlb, hrb⟩ :=
    Partition_bounds
      (fun v : Vec => decide (v sd <
        dInterp st.crange (((goal : ℚ) - (st.bcol : ℚ)) / ((st.ecol : ℚ) - (st.bcol : ℚ)))))
      pointBox
      st.bcol (st.ecol - st.bcol) st.store emptyB emptyB scol store' lbv rbv hP
  rw [hsum] at hsp2 hR hσ2 houtside hrb
  have hperm : store' = fun i => st.store (σ i) := funext hσ1
  have hlb' : bboxRange store' st.bcol scol = lbv := hlb.symm
  have hrb' : bboxRange store' scol st.ecol = rbv := hrb.symm
  split at hres
  · rename_i heq
    injection hres with hd
    subst hd
    dsimp only
    refine ⟨rfl, rfl, rfl, ⟨σ, hσ2, hperm⟩, ?_, ?_⟩
    · have h1 : bboxRange store' st.bcol goal = lbv := by rw [← heq]; exact hlb'
      rw [h1]
      exact le_trans le_sup_right le_sup_right
    · have h1 : bboxRange store' goal st.ecol = rbv := by rw [← heq]; exact hrb'
      rw [h1]
      exact le_trans le_sup_right le_sup_right
  · rename_i hne
    split at hres
    · rename_i hlt
      split at hres
      · rename_i hwid
        injection hres with hd
        subst hd
        dsimp only
        refine ⟨rfl, rfl, rfl, ⟨σ, hσ2, hperm⟩, ?_, ?_⟩
        · have h1 : bboxRange store' st.bcol goal ≤ bboxRange store' st.bcol st.ecol :=
            bbox_le_extend_hi store' st.bcol goal st.ecol hgoal1 hgoal2
          have h2 := bbox_le_pair store' st.bcol scol st.ecol hsp1 hsp2
          rw [hlb', hrb'] at h2
          exact le_trans (le_trans h1 h2)
            (le_trans (sup_le_sup_right le_sup_right rbv) le_sup_right)
        · have h1 : bboxRange store' goal st.ecol ≤ emptyB ⊔ bboxRange store' scol st.ecol :=
            bbox_shrink_lo store' scol goal st.ecol (le_of_lt hlt) hgoal2
          rw [hrb'] at h1
          exact le_trans h1 (sup_le_sup_left le_sup_right emptyB)
      · exact absurd hres (by simp)
    · rename_i hnlt
      split at hres
      · rename_i hwid
        injection hres with hd
        subst hd
        dsimp only
        have hgt : goal < scol := by omega
        refine ⟨rfl, rfl, rfl, ⟨σ, hσ2, hperm⟩, ?_, ?_⟩
        · have h1 : bboxRange store' st.bcol goal ≤ bboxRange store' st.bcol scol :=
            bbox_le_extend_hi store' st.bcol goal scol hgoal1 (le_of_lt hgt)
          rw [hlb'] at h1
          exact le_trans h1 (le_trans le_sup_right le_sup_right)
        · have h1 : bboxRange store' goal st.ecol ≤ emptyB ⊔ bboxRange store' st.bcol st.ecol :=
            bbox_shrink_lo store' st.bcol goal st.ecol hgoal1 hgoal2
          have h2 := bbox_le_pair store' st.bcol scol st.ecol hsp1 hsp2
          rw [hlb', hrb'] at h2
          have h4 : lbv ⊔ rbv ≤ (st.fr ⊔ rbv) ⊔ lbv :=
            sup_le le_sup_right (le_trans le_sup_right le_sup_left)
          exact le_trans h1 (sup_le_sup_left (le_trans h2 h4) emptyB)
      · exact absurd hres (by simp)

/-- A non-exiting iteration narrows the working range around the goal
and permutes the store only inside the incoming working range. -/
theorem splitStep_inr_perm (sd goal : ℕ) (st st' : SplitState)
    (hres : splitStep sd goal st = .inr st')
    (hgoal1 : st.bcol ≤ goal) (hgoal2 : goal ≤ st.ecol) :
    st.bcol ≤ st'.bcol ∧ st'.ecol ≤ st.ecol ∧ st'.bcol ≤ goal ∧ goal ≤ st'.ecol ∧
    (∃ σp : Equiv.Perm ℕ, (∀ k, k < st.bcol ∨ st.ecol ≤ k → σp k = k) ∧
      st'.store = fun i => st.store (σp i)) := by
  have hsum : st.bcol + (st.ecol - st.bcol) = st.ecol := by omega
  simp only [splitStep] at hres
  rcases hP : Partition
      (fun v : Vec => decide (v sd <
        dInterp st.crange (((goal : ℚ) - (st.bcol : ℚ)) / ((st.ecol : ℚ) - (st.bcol : ℚ)))))
      (fun acc a => acc ⊔ pointBox a)
      st.bcol (st.ecol - st.bcol) st.store emptyB emptyB with ⟨scol, store', lbv, rbv⟩
  rw [hP] at hres
  dsimp only at hres
  obtain ⟨⟨hsp1, hsp2⟩, houtside, ⟨σ, hσ1, hσ2⟩, hL, hR⟩ :=
    Partition_spec
      (fun v : Vec => decide (v sd <
        dInterp st.crange (((goal : ℚ) - (st.bcol : ℚ)) / ((st.ecol : ℚ) - (st.bcol : ℚ)))))
      (fun acc a => acc ⊔ pointBox a)
      st.bcol (st.ecol - st.bcol) st.store emptyB emptyB scol store' lbv rbv hP
  rw [hsum] at hsp2 hσ2 houtside
  have hperm : store' = fun i => st.store (σ i) := funext hσ1
  split at hres
  · exact absurd hres (by simp)
  · rename_i hne
    split at hres
    · rename_i hlt
      split at hres
      · exact absurd hres (by simp)
      · rename_i hwid
        injection hres with hst'
        subst hst'
        exact ⟨hsp1, le_refl _, le_of_lt hlt, hgoal2, σ, hσ2, hperm⟩
    · rename_i hnlt
      split at hres
      · exact absurd hres (by simp)
      · rename_i hwid
        injection hres with hst'
        subst hst'
        have hgt : goal < scol := by omega
        exact ⟨le_refl _, hsp2, hgoal1, le_of_lt hgt, σ, hσ2, hperm⟩

/-- Full exit contract of the interpolation-search loop: when it
returns, the split column is exactly the goal, the final working range
narrows around the goal inside the initial one, the store is permuted
only inside the initial working range, and the two final bounds cover
the bounding boxes of the two sides of the goal in the final range. -/
theorem splitSearch_master (sd goal : ℕ) :
    ∀ fuel st d, splitSearch sd goal fuel st = some d →
      st.bcol ≤ goal → goal ≤ st.ecol →
      d.splitCol = goal ∧
      st.bcol ≤ d.bcol ∧ d.bcol ≤ goal ∧ goal ≤ d.ecol ∧ d.ecol ≤ st.ecol ∧
      (∃ σp : Equiv.Perm ℕ, (∀ k, k < st.bcol ∨ st.ecol ≤ k → σp k = k) ∧
        d.store = fun i => st.store (σp i)) ∧
      bboxRange d.store d.bcol goal ≤ emptyB ⊔ d.fl ∧
      bboxRange d.store goal d.ecol ≤ emptyB ⊔ d.fr := by
  intro fuel
  induction fuel with
  | zero =>
    intro st d h
    exact absurd h (by simp [splitSearch])
  | succ n ih =>
    intro st d h hg1 hg2
    rw [splitSearch] at h
    cases hstep : splitStep sd goal st with
    | inl d' =>
      rw [hstep] at h
      injection h with h
      subst h
      obtain ⟨h1, h2, h3, hperm, hfl, hfr⟩ := splitStep_inl_spec sd goal st d' hstep hg1 hg2
      exact ⟨h1, le_of_eq h2.symm, h2 ▸ hg1, h3 ▸ hg2, le_of_eq h3, hperm, hfl, hfr⟩
    | inr st' =>
      rw [hstep] at h
      obtain ⟨hb1, hb2, hg1', hg2', σ1, hσfix, hσeq⟩ :=
        splitStep_inr_perm sd goal st st' hstep hg1 hg2
      obtain ⟨c1, c2, c3, c4, c5, ⟨σ2, hfix2, heq2⟩, cfl, cfr⟩ := ih st' d h hg1' hg2'
      refine ⟨c1, by omega, c3, c4, by omega, ⟨σ2.trans σ1, ?_, ?_⟩, cfl, cfr⟩
      · intro k hk
        have h2 := hfix2 k (by omega)
        simp only [Equiv.trans_apply, h2, hσfix k hk]
      · funext i
        simp only [heq2, hσeq, Equiv.trans_apply]
/-- For a single-machine rank range the goal column lies strictly
inside the node's range: the rounded index midpoint cannot escape
`(bcol, ecol]` when the range is wider than a chunk. -/
theorem goalCol_mem_single (chunk nPoints nPeers bcol ecol brank erank : ℕ)
    (hsm : erank ≤ brank + 1) (hc : 0 < chunk) (hlt : bcol + chunk < ecol) :
    bcol < goalCol chunk nPoints nPeers bcol ecol brank erank ∧
    goalCol chunk nPoints nPeers bcol ecol brank erank ≤ ecol := by
  have hg : goalCol chunk nPoints nPeers bcol ecol brank erank =
      ((bcol + ecol) / 2 + chunk / 2) / chunk * chunk := by
    simp only [goalCol]
    rw [if_pos hsm]
  rw [hg]
  have hqr := Nat.div_add_mod ((bcol + ecol) / 2 + chunk / 2) chunk
  have hr : ((bcol + ecol) / 2 + chunk / 2) % chunk < chunk := Nat.mod_lt _ hc
  set q := ((bcol + ecol) / 2 + chunk / 2) / chunk with hq
  set r := ((bcol + ecol) / 2 + chunk / 2) % chunk with hrr
  have hGr : q * chunk + r = (bcol + ecol) / 2 + chunk / 2 := by
    rw [Nat.mul_comm]
    exact hqr
  omega

/-- Full contract of the split-point stage of `Split_` for a
single-machine rank range: the split succeeded through one of its three
paths, producing a split record whose columns nest inside the node's
range, whose store is a permutation of the input inside the node's
range, and whose final bounds either cover the two sides of the split
column or are both left empty (the zero-width-axis midpoint path);
then both child builds succeeded on the record's ranges, and the
ownership transfer is exactly the source's conditional one. -/
theorem Split_spec {σ : Type} (C : BuildCtx σ)
    (buildChild : Store → ℕ → ℕ → ℕ → ℕ → HBound → Option ℕ → Bool → Option (BuildOut σ))
    (sfuel : ℕ) (store : Store) (nodeB nodeE : ℕ) (nodeBound : HBound)
    (brank erank splitDim : ℕ) (parentBegin : Option ℕ) (so : SplitOut σ)
    (hres : Split_ C buildChild sfuel store nodeB nodeE nodeBound brank erank splitDim
      parentBegin = some so)
    (hsm : erank ≤ brank + 1) (hc : 0 < C.chunkSize) (hbe : nodeB ≤ nodeE) :
    ∃ d : SplitDone,
      nodeB ≤ d.bcol ∧ d.bcol ≤ d.splitCol ∧ d.splitCol ≤ d.ecol ∧ d.ecol ≤ nodeE ∧
      (∃ σp : Equiv.Perm ℕ, (∀ k, k < nodeB ∨ nodeE ≤ k → σp k = k) ∧
        d.store = fun i => store (σp i)) ∧
      ((bboxRange d.store d.bcol d.splitCol ≤ emptyB ⊔ d.fl ∧
        bboxRange d.store d.splitCol d.ecol ≤ emptyB ⊔ d.fr) ∨
       (d.fl = emptyB ∧ d.fr = emptyB)) ∧
      buildChild d.store d.bcol d.splitCol brank ((brank + erank) / 2) d.fl
        (some nodeB) (decide (1 < erank - brank)) = some so.out0 ∧
      buildChild so.out0.store d.splitCol d.ecol ((brank + erank) / 2) erank d.fr
        (some nodeB) (decide (1 < erank - brank)) = some so.out1 ∧
      so.transfer = (if nodeB &&& (C.chunkSize - 1) = 0 ∧ parentBegin ≠ some nodeB then
        [(nodeB / C.chunkSize, brank)] else []) := by
  obtain ⟨d, hcls, hc0, hc1, htr⟩ :=
    Split_inversion C buildChild sfuel store nodeB nodeE nodeBound brank erank splitDim
      parentBegin so hres
  have hmain : nodeB ≤ d.bcol ∧ d.bcol ≤ d.splitCol ∧ d.splitCol ≤ d.ecol ∧
      d.ecol ≤ nodeE ∧
      (∃ σp : Equiv.Perm ℕ, (∀ k, k < nodeB ∨ nodeE ≤ k → σp k = k) ∧
        d.store = fun i => store (σp i)) ∧
      ((bboxRange d.store d.bcol d.splitCol ≤ emptyB ⊔ d.fl ∧
        bboxRange d.store d.splitCol d.ecol ≤ emptyB ⊔ d.fr) ∨
       (d.fl = emptyB ∧ d.fr = emptyB)) := by
    rcases hcls with ⟨hcs, hw0, hd⟩ | ⟨hcs, hw0, hd⟩ | ⟨hcs, hss⟩
    · -- zero-width midpoint path
      subst hd
      dsimp only
      exact ⟨le_refl _, by omega, by omega, le_refl _,
        ⟨Equiv.refl ℕ, fun k _ => rfl, rfl⟩, Or.inr ⟨rfl, rfl⟩⟩
    · -- single midpoint partition path
      have hsum : nodeB + (nodeE - nodeB) = nodeE := by omega
      rcases hP : Partition
          (fun v : Vec => decide (v splitDim < dMid (nodeBound splitDim)))
          (fun acc a => acc ⊔ pointBox a) nodeB (nodeE - nodeB) store emptyB emptyB
        with ⟨scol, store', lbv, rbv⟩
      rw [hP] at hd
      dsimp only at hd
      subst hd
      dsimp only
      obtain ⟨⟨hsp1, hsp2⟩, houtside, ⟨σ, hσ1, hσ2⟩, hL, hR⟩ :=
        Partition_spec
          (fun v : Vec => decide (v splitDim < dMid (nodeBound splitDim)))
          (fun acc a => acc ⊔ pointBox a)
          nodeB (nodeE - nodeB) store emptyB emptyB scol store' lbv rbv hP
      obtain ⟨hlb, hrb⟩ :=
        Partition_bounds
          (fun v : Vec => decide (v splitDim < dMid (nodeBound splitDim)))
          pointBox
          nodeB (nodeE - nodeB) store emptyB emptyB scol store' lbv rbv hP
      rw [hsum] at hsp2 hσ2 hrb
      refine ⟨le_refl _, hsp1, hsp2, le_refl _, ⟨σ, hσ2, funext hσ1⟩, Or.inl ⟨?_, ?_⟩⟩
      · have h1 : bboxRange store' nodeB scol = lbv := hlb.symm
        rw [h1]
        exact le_sup_right
      · have h1 : bboxRange store' scol nodeE = rbv := hrb.symm
        rw [h1]
        exact le_sup_right
    · -- interpolation-search path
      have hgoal := goalCol_mem_single C.chunkSize C.nPoints C.nPeers nodeB nodeE brank erank
        hsm hc (by omega)
      obtain ⟨c1, c2, c3, c4, c5, hperm, hfl, hfr⟩ :=
        splitSearch_master splitDim
          (goalCol C.chunkSize C.nPoints C.nPeers nodeB nodeE brank erank) sfuel
          ⟨store, nodeB, nodeE, nodeBound splitDim, emptyB, emptyB⟩ d hss
          (le_of_lt hgoal.1) hgoal.2
      refine ⟨c2, by rw [c1]; exact c3, by rw [c1]; exact c4, c5, hperm, Or.inl ⟨?_, ?_⟩⟩
      · rw [c1]
        exact hfl
      · rw [c1]
        exact hfr
  obtain ⟨m1, m2, m3, m4, m5, m6⟩ := hmain
  exact ⟨d, m1, m2, m3, m4, m5, m6, hc0, hc1, htr⟩
/-- A property holding at every node of a built tree. -/
def AllNodes {σ : Type} (P : KdTree σ → Prop) : KdTree σ → Prop
  | .leaf b e bd st => P (.leaf b e bd st)
  | .node b e bd st c0 c1 => P (.node b e bd st c0 c1) ∧ AllNodes P c0 ∧ AllNodes P c1

theorem AllNodes_imp {σ : Type} {P Q : KdTree σ → Prop} (h : ∀ t, P t → Q t) :
    ∀ t, AllNodes P t → AllNodes Q t := by
  intro t
  induction t with
  | leaf b e bd st => exact h _
  | node b e bd st c0 c1 ih0 ih1 =>
    rintro ⟨hp, h0, h1⟩
    exact ⟨h _ hp, ih0 h0, ih1 h1⟩

theorem AllNodes_imp2 {σ : Type} {P Q R : KdTree σ → Prop} (h : ∀ t, P t → Q t → R t) :
    ∀ t, AllNodes P t → AllNodes Q t → AllNodes R t := by
  intro t
  induction t with
  | leaf b e bd st => exact h _
  | node b e bd st c0 c1 ih0 ih1 =>
    rintro ⟨hp, hp0, hp1⟩ ⟨hq, hq0, hq1⟩
    exact ⟨h _ hp hq, ih0 hp0 hq0, ih1 hp1 hq1⟩

/-- Well-formedness of a decomposition node against the spatial node it
stands for: its rank range is the node's, its index range is the
node's, and its children (it has zero or two) exist only when the rank
range spans more than one machine, in which case they cover the node's
spatial children with the rank range subdivided at its midpoint. -/
def DecompOk {σ : Type} : DecompNode → KdTree σ → ℕ → ℕ → Prop
  | .dleaf br er nb ne, t, brank, erank =>
      br = brank ∧ er = erank ∧ nb = treeB t ∧ ne = treeE t
  | .dnode br er nb ne d0 d1, t, brank, erank =>
      br = brank ∧ er = erank ∧ nb = treeB t ∧ ne = treeE t ∧ 1 < erank - brank ∧
      ∃ t0 t1, child0 t = some t0 ∧ child1 t = some t1 ∧
        DecompOk d0 t0 brank ((brank + erank) / 2) ∧
        DecompOk d1 t1 ((brank + erank) / 2) erank

/-- Every successful `Build_` stores as the node's statistic exactly
`Postprocess` applied to the pre-accumulation statistic it reports to
its parent. -/
theorem Build_stat_post {σ : Type} (C : BuildCtx σ) (fuel : ℕ)
    (store : Store) (bcol ecol brank erank : ℕ) (bound : HBound)
    (pb : Option ℕ) (wd : Bool) (out : BuildOut σ)
    (hres : Build_ C fuel store bcol ecol brank erank bound pb wd = some out) :
    treeStat out.tree = C.post out.preStat (treeBound out.tree) (treeCount out.tree) := by
  cases fuel with
  | zero => exact absurd hres (by simp [Build_])
  | succ n =>
    rcases Build_inversion C n store bcol ecol brank erank bound pb wd out hres with
      ⟨_, hout⟩ | ⟨_, ⟨sd, so, _, _, hout⟩⟩
    · subst hout
      rfl
    · subst hout
      rfl

/-- Decomposition-node production of `Build_`: no decomposition node
without a request, and on request a decomposition node well-formed
against the built spatial node. -/
theorem Build_decomp_master {σ : Type} (C : BuildCtx σ) :
    ∀ fuel store bcol ecol brank erank bound pb wd out,
      Build_ C fuel store bcol ecol brank erank bound pb wd = some out →
      (wd = false → out.decomp = none) ∧
      (wd = true → ∃ dn, out.decomp = some dn ∧ DecompOk dn out.tree brank erank) := by
  intro fuel
  induction fuel with
  | zero =>
    intro _ _ _ _ _ _ _ _ out h
    exact absurd h (by simp [Build_])
  | succ n ih =>
    intro store bcol ecol brank erank bound pb wd out hres
    rcases Build_inversion C n store bcol ecol brank erank bound pb wd out hres with
      ⟨hleaf, hout⟩ | ⟨hnl, ⟨sd, so, hfd, hsp, hout⟩⟩
    · subst hout
      constructor
      · intro h
        subst h
        rfl
      · intro h
        subst h
        exact ⟨.dleaf brank erank bcol ecol, rfl, rfl, rfl, rfl, rfl⟩
    · subst hout
      obtain ⟨d, hcls, hc0, hc1, htrans⟩ :=
        Split_inversion C (Build_ C n) n store bcol ecol (emptyB ⊔ bound) brank erank sd pb
          so hsp
      have ih0 := ih d.store d.bcol d.splitCol brank ((brank + erank) / 2) d.fl
        (some bcol) (decide (1 < erank - brank)) so.out0 hc0
      have ih1 := ih so.out0.store d.splitCol d.ecol ((brank + erank) / 2) erank d.fr
        (some bcol) (decide (1 < erank - brank)) so.out1 hc1
      constructor
      · intro h
        subst h
        rfl
      · intro h
        subst h
        by_cases hrk : 1 < erank - brank
        · have hcw : decide (1 < erank - brank) = true := decide_eq_true hrk
          rw [hcw] at ih0 ih1
          obtain ⟨dn0, hdn0, hok0⟩ := ih0.2 rfl
          obtain ⟨dn1, hdn1, hok1⟩ := ih1.2 rfl
          refine ⟨.dnode brank erank bcol ecol dn0 dn1, ?_, ?_⟩
          · dsimp only
            rw [if_pos rfl, hdn0, hdn1]
            rfl
          · exact ⟨rfl, rfl, rfl, rfl, hrk, so.out0.tree, so.out1.tree, rfl, rfl, hok0, hok1⟩
        · have hcw : decide (1 < erank - brank) = false := decide_eq_false hrk
          rw [hcw] at ih0 ih1
          have hd0 : so.out0.decomp = none := ih0.1 rfl
          have hd1 : so.out1.decomp = none := ih1.1 rfl
          refine ⟨.dleaf brank erank bcol ecol, ?_, ?_⟩
          · dsimp only
            rw [if_pos rfl, hd0, hd1]
            rfl
          · exact ⟨rfl, rfl, rfl, rfl⟩
/-- C10: for every node with a parent, `Build_` accumulates the node's
statistic into the parent's statistic *before* applying the node's own
`Postprocess` hook: the statistic a successful build hands its parent
is the pre-`Postprocess` one, the parent's own accumulated statistic
folds exactly the two children's pre-`Postprocess` statistics in order,
and the statistic stored in each node is `Postprocess` applied exactly
once, to that accumulated value. -/
theorem claim_C10_stat_accumulation {σ : Type} (C : BuildCtx σ) (fuel : ℕ)
    (store : Store) (bcol ecol brank erank : ℕ) (bound : HBound)
    (pb : Option ℕ) (wd : Bool) (out : BuildOut σ)
    (hres : Build_ C fuel store bcol ecol brank erank bound pb wd = some out) :
    treeStat out.tree = C.post out.preStat (treeBound out.tree) (treeCount out.tree) ∧
    (treeIsLeaf out.tree = false →
      ∃ pre0 pre1 t0 t1, child0 out.tree = some t0 ∧ child1 out.tree = some t1 ∧
        treeStat t0 = C.post pre0 (treeBound t0) (treeCount t0) ∧
        treeStat t1 = C.post pre1 (treeBound t1) (treeCount t1) ∧
        out.preStat = C.accChild (C.accChild C.statInit pre0 (treeBound t0) (treeCount t0))
          pre1 (treeBound t1) (treeCount t1)) := by
  refine ⟨Build_stat_post C fuel store bcol ecol brank erank bound pb wd out hres, ?_⟩
  cases fuel with
  | zero => exact absurd hres (by simp [Build_])
  | succ n =>
    rcases Build_inversion C n store bcol ecol brank erank bound pb wd out hres with
      ⟨_, hout⟩ | ⟨_, ⟨sd, so, hfd, hsp, hout⟩⟩
    · subst hout
      intro h
      exact absurd h (by simp [treeIsLeaf])
    · subst hout
      intro _
      obtain ⟨d, hcls, hc0, hc1, htrans⟩ :=
        Split_inversion C (Build_ C n) n store bcol ecol (emptyB ⊔ bound) brank erank sd pb
          so hsp
      exact ⟨so.out0.preStat, so.out1.preStat, so.out0.tree, so.out1.tree, rfl, rfl,
        Build_stat_post C n d.store d.bcol d.splitCol brank ((brank + erank) / 2) d.fl
          (some bcol) (decide (1 < erank - brank)) so.out0 hc0,
        Build_stat_post C n so.out0.store d.splitCol d.ecol ((brank + erank) / 2) erank d.fr
          (some bcol) (decide (1 < erank - brank)) so.out1 hc1,
        rfl⟩

def c10out : BuildOut Unit :=
  (Build_ (unitCtx 1 1 1 1) 20 (lineStore [0, 5, 9, 9]) 0 4 0 1
    (FindBoundingBox_ (lineStore [0, 5, 9, 9]) 0 4) none true).getD default

theorem claim_C10_stat_accumulation_witness :
    Build_ (unitCtx 1 1 1 1) 20 (lineStore [0, 5, 9, 9]) 0 4 0 1
      (FindBoundingBox_ (lineStore [0, 5, 9, 9]) 0 4) none true = some c10out ∧
    treeStat c10out.tree = (unitCtx 1 1 1 1).post c10out.preStat (treeBound c10out.tree)
      (treeCount c10out.tree) :=
  have h : Build_ (unitCtx 1 1 1 1) 20 (lineStore [0, 5, 9, 9]) 0 4 0 1
      (FindBoundingBox_ (lineStore [0, 5, 9, 9]) 0 4) none true = some c10out := by
    with_unfolding_all rfl
  ⟨h, (claim_C10_stat_accumulation (unitCtx 1 1 1 1) 20 (lineStore [0, 5, 9, 9]) 0 4 0 1
    (FindBoundingBox_ (lineStore [0, 5, 9, 9]) 0 4) none true c10out h).1⟩

/-- C9: every decomposition node a successful build produces is
well-formed against the spatial node it stands for: it carries that
node's rank range and index range, has either zero or two
decomposition children, children exist only when the rank range spans
more than one machine, and when they exist they pair with the node's
two spatial children with the rank range subdivided at its midpoint. -/
theorem claim_C9_decomp_shape {σ : Type} (C : BuildCtx σ) (fuel : ℕ) (store : Store)
    (b e r : ℕ) (out : BuildOut σ)
    (hres : Doit C fuel store b e r = some out) :
    ∃ dn, out.decomp = some dn ∧ DecompOk dn out.tree 0 r := by
  unfold Doit at hres
  exact (Build_decomp_master { C with nPoints := e - b } fuel store b e 0 r
    (FindBoundingBox_ store b (e - b)) none true out hres).2 rfl

def c9out : BuildOut Unit :=
  (Doit (unitCtx 1 1 1 4) 30 (lineStore [0, 1, 2, 3]) 0 4 4).getD default

theorem claim_C9_decomp_shape_witness :
    Doit (unitCtx 1 1 1 4) 30 (lineStore [0, 1, 2, 3]) 0 4 4 = some c9out ∧
    ∃ dn, c9out.decomp = some dn ∧ DecompOk dn c9out.tree 0 4 :=
  have h : Doit (unitCtx 1 1 1 4) 30 (lineStore [0, 1, 2, 3]) 0 4 4 = some c9out := by
    with_unfolding_all rfl
  ⟨h, claim_C9_decomp_shape (unitCtx 1 1 1 4) 30 (lineStore [0, 1, 2, 3]) 0 4 4 c9out h⟩
/-- Master invariant of a successful single-machine `Build_`: the built
root covers exactly the requested range, the store is only permuted
inside that range, every node's range nests inside it, and — whenever
the incoming bound covers the range's bounding box (or is empty) —
every node's bound covers the bounding box of the points finally stored
in that node's range, except for nodes whose bound is the empty
sentinel (the zero-width-axis midpoint path). -/
theorem Build_bounds_master {σ : Type} (C : BuildCtx σ) (hc : 0 < C.chunkSize) :
    ∀ fuel store bcol ecol brank erank bound pb wd out,
      Build_ C fuel store bcol ecol brank erank bound pb wd = some out →
      erank ≤ brank + 1 →
      treeB out.tree = bcol ∧ treeE out.tree = ecol ∧
      (∃ σp : Equiv.Perm ℕ, (∀ k, k < bcol ∨ ecol ≤ k → σp k = k) ∧
        out.store = fun i => store (σp i)) ∧
      AllNodes (fun t => bcol ≤ treeB t ∧ treeE t ≤ ecol) out.tree ∧
      ((bboxRange store bcol ecol ≤ emptyB ⊔ bound ∨ bound = emptyB) →
        AllNodes (fun t =>
          bboxRange out.store (treeB t) (treeE t) ≤ treeBound t ∨ treeBound t = emptyB)
          out.tree) := by
  intro fuel
  induction fuel with
  | zero =>
    intro _ _ _ _ _ _ _ _ out h
    exact absurd h (by simp [Build_])
  | succ n ih =>
    intro store bcol ecol brank erank bound pb wd out hres hsm
    rcases Build_inversion C n store bcol ecol brank erank bound pb wd out hres with
      ⟨hleaf, hout⟩ | ⟨hnl, ⟨sd, so, hfd, hsp, hout⟩⟩
    · -- leaf
      subst hout
      refine ⟨rfl, rfl, ⟨Equiv.refl ℕ, fun k _ => rfl, rfl⟩, ⟨le_refl _, le_refl _⟩, ?_⟩
      intro hbnd
      rcases hbnd with hb | hb
      · exact Or.inl hb
      · refine Or.inr ?_
        show emptyB ⊔ bound = emptyB
        rw [hb, sup_idem]
    · -- non-leaf
      subst hout
      have hbe : bcol ≤ ecol := by omega
      obtain ⟨d, hb1, hb2, hb3, hb4, ⟨σd, hσdfix, hσdeq⟩, hbnds, hc0, hc1, htr⟩ :=
        Split_spec C (Build_ C n) n store bcol ecol (emptyB ⊔ bound) brank erank sd pb so
          hsp hsm hc hbe
      have hsm0 : (brank + erank) / 2 ≤ brank + 1 := by omega
      have hsm1 : erank ≤ (brank + erank) / 2 + 1 := by omega
      obtain ⟨t0B, t0E, ⟨σ0, hσ0fix, hσ0eq⟩, A0r, A0bf⟩ :=
        ih d.store d.bcol d.splitCol brank ((brank + erank) / 2) d.fl (some bcol)
          (decide (1 < erank - brank)) so.out0 hc0 hsm0
      obtain ⟨t1B, t1E, ⟨σ1, hσ1fix, hσ1eq⟩, A1r, A1bf⟩ :=
        ih so.out0.store d.splitCol d.ecol ((brank + erank) / 2) erank d.fr (some bcol)
          (decide (1 < erank - brank)) so.out1 hc1 hsm1
      have hstore_eq : so.out1.store = fun i => store (((σ1.trans σ0).trans σd) i) := by
        funext i
        simp only [hσ1eq, hσ0eq, hσdeq, Equiv.trans_apply]
      have hfixtot : ∀ k, k < bcol ∨ ecol ≤ k → ((σ1.trans σ0).trans σd) k = k := by
        intro k hk
        have h1 : σ1 k = k := hσ1fix k (by omega)
        simp only [Equiv.trans_apply, h1, hσ0fix k (by omega), hσdfix k hk]
      refine ⟨rfl, rfl, ⟨(σ1.trans σ0).trans σd, hfixtot, hstore_eq⟩, ?_, ?_⟩
      · -- range nesting at every node
        refine ⟨⟨le_refl _, le_refl _⟩, ?_, ?_⟩
        · exact AllNodes_imp
            (fun t ht => ⟨le_trans hb1 ht.1, le_trans ht.2 (le_trans hb3 hb4)⟩)
            so.out0.tree A0r
        · exact AllNodes_imp
            (fun t ht => ⟨le_trans (le_trans hb1 hb2) ht.1, le_trans ht.2 hb4⟩)
            so.out1.tree A1r
      · -- bound containment at every node
        intro hbnd
        have hbnd0 : bboxRange d.store d.bcol d.splitCol ≤ emptyB ⊔ d.fl ∨ d.fl = emptyB := by
          rcases hbnds with ⟨h1, _⟩ | ⟨h1, _⟩
          · exact Or.inl h1
          · exact Or.inr h1
        have hagree01 : ∀ k, d.splitCol ≤ k → k < d.ecol → so.out0.store k = d.store k := by
          intro k hk1 hk2
          rw [hσ0eq]
          show d.store (σ0 k) = d.store k
          rw [hσ0fix k (Or.inr hk1)]
        have hbnd1 : bboxRange so.out0.store d.splitCol d.ecol ≤ emptyB ⊔ d.fr ∨
            d.fr = emptyB := by
          rw [bbox_congr so.out0.store d.store d.splitCol d.ecol hagree01]
          rcases hbnds with ⟨_, h1⟩ | ⟨_, h1⟩
          · exact Or.inl h1
          · exact Or.inr h1
        have A0b := A0bf hbnd0
        have A1b := A1bf hbnd1
        have A0b' : AllNodes (fun t =>
            bboxRange so.out1.store (treeB t) (treeE t) ≤ treeBound t ∨ treeBound t = emptyB)
            so.out0.tree := by
          refine AllNodes_imp2 ?_ so.out0.tree A0r A0b
          intro t htr htb
          rcases htb with htb | htb
          · left
            have hag : ∀ k, treeB t ≤ k → k < treeE t → so.out1.store k = so.out0.store k := by
              intro k hk1 hk2
              rw [hσ1eq]
              show so.out0.store (σ1 k) = so.out0.store k
              rw [hσ1fix k (Or.inl (by omega))]
            rw [bbox_congr so.out1.store so.out0.store (treeB t) (treeE t) hag]
            exact htb
          · exact Or.inr htb
        refine ⟨?_, A0b', A1b⟩
        rcases hbnd with hb | hb
        · left
          show bboxRange so.out1.store bcol ecol ≤ emptyB ⊔ bound
          have hperm_eq : bboxRange so.out1.store bcol ecol = bboxRange store bcol ecol := by
            rw [hstore_eq]
            exact bbox_perm store ((σ1.trans σ0).trans σd) bcol ecol hfixtot
          rw [hperm_eq]
          exact hb
        · right
          show emptyB ⊔ bound = emptyB
          rw [hb, sup_idem]
/-- C3 (amended): for every node of a finished single-machine build,
`node.bound` contains the axis-aligned bounding box of the coordinates
finally stored at `[node.begin, node.end)`, unless the node's bound is
the empty sentinel inherited from the zero-width-axis midpoint path
(and exactness fails in general, see the counterexample). -/
theorem claim_C3_bound_contains_range {σ : Type} (C : BuildCtx σ) (fuel : ℕ)
    (store : Store) (b e r : ℕ) (out : BuildOut σ)
    (hc : 0 < C.chunkSize) (hsm : r ≤ 1)
    (hres : Doit C fuel store b e r = some out) :
    AllNodes (fun t =>
      bboxRange out.store (treeB t) (treeE t) ≤ treeBound t ∨ treeBound t = emptyB)
      out.tree := by
  unfold Doit at hres
  have hmast := Build_bounds_master { C with nPoints := e - b } hc fuel store b e 0 r
    (FindBoundingBox_ store b (e - b)) none true out hres (by omega)
  refine hmast.2.2.2.2 (Or.inl ?_)
  by_cases hbe : b ≤ e
  · have he : b + (e - b) = e := by omega
    show bboxRange store b e ≤ emptyB ⊔ bboxRange store b (b + (e - b))
    rw [he]
    exact le_sup_right
  · have h1 : bboxRange store b e = emptyB := by
      unfold bboxRange
      rw [pts_empty store b e (by omega), sfold_nil]
    rw [h1]
    exact le_sup_left

def c3out : BuildOut Unit :=
  (Doit (unitCtx 1 1 1 1) 20 (lineStore [0, 5, 5, 9]) 0 4 1).getD default

theorem claim_C3_bound_contains_range_witness :
    0 < (unitCtx 1 1 1 1).chunkSize ∧ (1 : ℕ) ≤ 1 ∧
    Doit (unitCtx 1 1 1 1) 20 (lineStore [0, 5, 5, 9]) 0 4 1 = some c3out ∧
    AllNodes (fun t =>
      bboxRange c3out.store (treeB t) (treeE t) ≤ treeBound t ∨ treeBound t = emptyB)
      c3out.tree :=
  have h : Doit (unitCtx 1 1 1 1) 20 (lineStore [0, 5, 5, 9]) 0 4 1 = some c3out := by
    with_unfolding_all rfl
  ⟨Nat.one_pos, le_refl 1, h,
    claim_C3_bound_contains_range (unitCtx 1 1 1 1) 20 (lineStore [0, 5, 5, 9]) 0 4 1 c3out
      Nat.one_pos (le_refl 1) h⟩

/-- A number whose bitwise AND with `2^k - 1` vanishes is divisible by
`2^k`: the source's block-alignment test `begin & (n_block_elems - 1)`
really tests divisibility by the block size. -/
theorem land_mask_eq_mod_zero {n k : ℕ} (h : n &&& (2 ^ k - 1) = 0) : n % 2 ^ k = 0 := by
  apply Nat.eq_of_testBit_eq
  intro i
  rw [Nat.testBit_mod_two_pow, Nat.zero_testBit]
  by_cases hik : i < k
  · have hbit : (n &&& (2 ^ k - 1)).testBit i = false := by
      rw [h]
      exact Nat.zero_testBit i
    rw [Nat.testBit_land, Nat.testBit_two_pow_sub_one] at hbit
    rw [decide_eq_true hik, Bool.and_true] at hbit
    rw [decide_eq_true hik, Bool.true_and, hbit]
  · rw [decide_eq_false hik, Bool.false_and]

/-- The transfer site of an ownership event `(block id, rank)`: a
successful `Split_` (lines 276-283 live only there) of a node whose
begin column is exactly the block's first index (`block id * chunk`),
block-aligned by the source's bit test, different from the parent's
begin, and whose `begin_rank` — the `Split_` call's fourth-from-last
numeric argument, placed here as `ev.2` — receives the block; the
event is the one that `Split_` call emitted. -/
def TransferSite {σ : Type} (C : BuildCtx σ) (ev : ℕ × ℕ) : Prop :=
  ev.1 * C.chunkSize &&& (C.chunkSize - 1) = 0 ∧
  ∃ (buildChild : Store → ℕ → ℕ → ℕ → ℕ → HBound → Option ℕ → Bool →
      Option (BuildOut σ))
    (sfuel : ℕ) (store2 : Store) (nodeE : ℕ) (nodeBound : HBound)
    (erank2 sd2 : ℕ) (pb2 : Option ℕ) (so2 : SplitOut σ),
    Split_ C buildChild sfuel store2 (ev.1 * C.chunkSize) nodeE nodeBound ev.2 erank2 sd2
      pb2 = some so2 ∧
    pb2 ≠ some (ev.1 * C.chunkSize) ∧
    ev ∈ so2.transfer

/-- Master invariant of ownership-transfer events in a single-machine
build with a power-of-two chunk size: every event transfers a block
whose first index is inside the built range and differs from the
parent's begin, the event arises at a `Split_` of a node beginning
exactly at that block-aligned index whose `begin_rank` receives the
block, and no block is transferred twice. -/
theorem Build_events_master {σ : Type} (C : BuildCtx σ) (kk : ℕ)
    (hk : C.chunkSize = 2 ^ kk) :
    ∀ fuel store bcol ecol brank erank bound pb wd out,
      Build_ C fuel store bcol ecol brank erank bound pb wd = some out →
      erank ≤ brank + 1 →
      (∀ p, pb = some p → p ≤ bcol) →
      (∀ ev ∈ out.events, bcol ≤ ev.1 * C.chunkSize ∧ ev.1 * C.chunkSize < ecol ∧
        (∀ p, pb = some p → ev.1 * C.chunkSize ≠ p) ∧ TransferSite C ev) ∧
      (out.events.map Prod.fst).Nodup := by
  have hc : 0 < C.chunkSize := by
    rw [hk]
    positivity
  intro fuel
  induction fuel with
  | zero =>
    intro _ _ _ _ _ _ _ _ out h
    exact absurd h (by simp [Build_])
  | succ n ih =>
    intro store bcol ecol brank erank bound pb wd out hres hsm hpb
    rcases Build_inversion C n store bcol ecol brank erank bound pb wd out hres with
      ⟨hleaf, hout⟩ | ⟨hnl, ⟨sd, so, hfd, hsp, hout⟩⟩
    · subst hout
      exact ⟨fun ev hev => (List.not_mem_nil ev hev).elim, List.nodup_nil⟩
    · subst hout
      have hbe : bcol ≤ ecol := by omega
      have hbl : bcol < ecol := by omega
      obtain ⟨d, hb1, hb2, hb3, hb4, hpermd, hbnds, hc0, hc1, htr⟩ :=
        Split_spec C (Build_ C n) n store bcol ecol (emptyB ⊔ bound) brank erank sd pb so
          hsp hsm hc hbe
      have hsm0 : (brank + erank) / 2 ≤ brank + 1 := by omega
      have hsm1 : erank ≤ (brank + erank) / 2 + 1 := by omega
      obtain ⟨E0, N0⟩ := ih d.store d.bcol d.splitCol brank ((brank + erank) / 2) d.fl
        (some bcol) (decide (1 < erank - brank)) so.out0 hc0 hsm0
        (fun p hp => by injection hp with hp; omega)
      obtain ⟨E1, N1⟩ := ih so.out0.store d.splitCol d.ecol ((brank + erank) / 2) erank d.fr
        (some bcol) (decide (1 < erank - brank)) so.out1 hc1 hsm1
        (fun p hp => by injection hp with hp; omega)
      have htrv : ∀ ev ∈ so.transfer, ev.1 * C.chunkSize = bcol ∧
          (∀ p, pb = some p → bcol ≠ p) ∧ TransferSite C ev := by
        intro ev hev
        have hev0 := hev
        rw [htr] at hev
        split at hev
        · rename_i hcond
          have hev' := List.mem_singleton.mp hev
          subst hev'
          have hmod : bcol % C.chunkSize = 0 := by
            rw [hk]
            exact land_mask_eq_mod_zero (by rw [← hk]; exact hcond.1)
          have hv : bcol / C.chunkSize * C.chunkSize = bcol :=
            Nat.div_mul_cancel (Nat.dvd_of_mod_eq_zero hmod)
          refine ⟨hv, ?_, ?_, ?_⟩
          · intro p hp hbp
            apply hcond.2
            rw [hbp]
            exact hp
          · show bcol / C.chunkSize * C.chunkSize &&& (C.chunkSize - 1) = 0
            rw [hv]
            exact hcond.1
          · refine ⟨Build_ C n, n, store, ecol, emptyB ⊔ bound, erank, sd, pb, so,
              ?_, ?_, hev0⟩
            · show Split_ C (Build_ C n) n store (bcol / C.chunkSize * C.chunkSize) ecol
                (emptyB ⊔ bound) brank erank sd pb = some so
              rw [hv]
              exact hsp
            · show pb ≠ some (bcol / C.chunkSize * C.chunkSize)
              rw [hv]
              exact hcond.2
        · exact (List.not_mem_nil ev hev).elim
      constructor
      · intro ev hev
        rcases List.mem_append.mp hev with hev' | hev1
        · rcases List.mem_append.mp hev' with hevt | hev0
          · obtain ⟨hv, hnp, hsite⟩ := htrv ev hevt
            refine ⟨le_of_eq hv.symm, by rw [hv]; omega, ?_, hsite⟩
            intro p hp
            rw [hv]
            exact hnp p hp
          · obtain ⟨h1, h2, h3, h4⟩ := E0 ev hev0
            have hne : ev.1 * C.chunkSize ≠ bcol := h3 bcol rfl
            refine ⟨le_trans hb1 h1, lt_of_lt_of_le h2 (le_trans hb3 hb4), ?_, h4⟩
            intro p hp hvp
            exact hne (hvp.trans (le_antisymm (hpb p hp) (hvp ▸ le_trans hb1 h1)))
        · obtain ⟨h1, h2, h3, h4⟩ := E1 ev hev1
          have hne : ev.1 * C.chunkSize ≠ bcol := h3 bcol rfl
          refine ⟨le_trans (le_trans hb1 hb2) h1, lt_of_lt_of_le h2 hb4, ?_, h4⟩
          intro p hp hvp
          exact hne (hvp.trans (le_antisymm (hpb p hp)
            (hvp ▸ le_trans (le_trans hb1 hb2) h1)))
      · rw [List.map_append, List.map_append, List.nodup_append, List.nodup_append]
        refine ⟨⟨?_, N0, ?_⟩, N1, ?_⟩
        · rw [htr]
          split
          · exact List.nodup_singleton _
          · exact List.nodup_nil
        · intro x hxt hx0
          obtain ⟨ev, hev, hevx⟩ := List.mem_map.mp hxt
          obtain ⟨ev0, hev0, hev0x⟩ := List.mem_map.mp hx0
          obtain ⟨hv, _, _⟩ := htrv ev hev
          obtain ⟨h1, h2, h3, _⟩ := E0 ev0 hev0
          have hne : ev0.1 * C.chunkSize ≠ bcol := h3 bcol rfl
          have hid : ev.1 = ev0.1 := by rw [hevx, hev0x]
          rw [hid] at hv
          exact hne hv
        · intro x hx01 hx1
          obtain ⟨ev1, hev1, hev1x⟩ := List.mem_map.mp hx1
          obtain ⟨h1, h2, h3, _⟩ := E1 ev1 hev1
          rcases List.mem_append.mp hx01 with hxt | hx0
          · obtain ⟨ev, hev, hevx⟩ := List.mem_map.mp hxt
            obtain ⟨hv, _, _⟩ := htrv ev hev
            have hne : ev1.1 * C.chunkSize ≠ bcol := h3 bcol rfl
            have hid : ev.1 = ev1.1 := by rw [hevx, hev1x]
            rw [hid] at hv
            exact hne hv
          · obtain ⟨ev0, hev0, hev0x⟩ := List.mem_map.mp hx0
            obtain ⟨g1, g2, g3, _⟩ := E0 ev0 hev0
            have hid : ev0.1 = ev1.1 := by rw [hev0x, hev1x]
            rw [hid] at g2
            exact absurd h1 (not_le.mpr g2)

/-- C8 (amended): in a successful single-machine build with a
power-of-two chunk size, each storage block's ownership is transferred
at most once during the whole build (the transferred block ids are
pairwise distinct); every transferred block starts inside the built
range; every transfer arises at a `Split_` of a node whose begin is
exactly the transferred block's aligned first index and differs from
its parent's begin, with the block handed to that node's `begin_rank`;
and conversely every successful `Split_` transfers exactly under the
source's alignment-and-fresh-begin condition, handing `begin / chunk`
to `begin_rank`.  (The leaf-only counterexample shows the claim's
`exactly at the first aligned node` cannot hold as stated: leaves
never transfer.) -/
theorem claim_C8_transfer_once {σ : Type} (C : BuildCtx σ) (kk fuel : ℕ)
    (store : Store) (b e r : ℕ) (out : BuildOut σ)
    (hk : C.chunkSize = 2 ^ kk) (hsm : r ≤ 1)
    (hres : Doit C fuel store b e r = some out) :
    (out.events.map Prod.fst).Nodup ∧
    (∀ ev ∈ out.events, (b ≤ ev.1 * C.chunkSize ∧ ev.1 * C.chunkSize < e) ∧
      TransferSite { C with nPoints := e - b } ev) ∧
    (∀ (buildChild : Store → ℕ → ℕ → ℕ → ℕ → HBound → Option ℕ → Bool →
        Option (BuildOut σ))
      (sfuel : ℕ) (store2 : Store) (nodeB2 nodeE2 : ℕ) (nodeBound2 : HBound)
      (brank2 erank2 sd2 : ℕ) (pb2 : Option ℕ) (so2 : SplitOut σ),
      Split_ C buildChild sfuel store2 nodeB2 nodeE2 nodeBound2 brank2 erank2 sd2 pb2 =
        some so2 →
      so2.transfer = (if nodeB2 &&& (C.chunkSize - 1) = 0 ∧ pb2 ≠ some nodeB2 then
        [(nodeB2 / C.chunkSize, brank2)] else [])) := by
  unfold Doit at hres
  have hm := Build_events_master { C with nPoints := e - b } kk hk fuel store b e 0 r
    (FindBoundingBox_ store b (e - b)) none true out hres (by omega)
    (fun p hp => nomatch hp)
  refine ⟨hm.2, fun ev hev => ⟨⟨(hm.1 ev hev).1, (hm.1 ev hev).2.1⟩, (hm.1 ev hev).2.2.2⟩,
    ?_⟩
  intro buildChild sfuel store2 nodeB2 nodeE2 nodeBound2 brank2 erank2 sd2 pb2 so2 hsplit
  obtain ⟨d, hcls, hc0, hc1, htr2⟩ :=
    Split_inversion C buildChild sfuel store2 nodeB2 nodeE2 nodeBound2 brank2 erank2 sd2
      pb2 so2 hsplit
  exact htr2

def c8out : BuildOut Unit :=
  (Doit (unitCtx 1 1 2 1) 30 (lineStore [0, 1, 2, 3, 4, 5, 6, 7]) 0 8 1).getD default

theorem claim_C8_transfer_once_witness :
    (unitCtx 1 1 2 1).chunkSize = 2 ^ 1 ∧ (1 : ℕ) ≤ 1 ∧
    Doit (unitCtx 1 1 2 1) 30 (lineStore [0, 1, 2, 3, 4, 5, 6, 7]) 0 8 1 = some c8out ∧
    ((c8out.events.map Prod.fst).Nodup ∧
      ∀ ev ∈ c8out.events, (0 ≤ ev.1 * (unitCtx 1 1 2 1).chunkSize ∧
        ev.1 * (unitCtx 1 1 2 1).chunkSize < 8) ∧
        TransferSite { unitCtx 1 1 2 1 with nPoints := 8 - 0 } ev) :=
  have h : Doit (unitCtx 1 1 2 1) 30 (lineStore [0, 1, 2, 3, 4, 5, 6, 7]) 0 8 1 =
      some c8out := by
    with_unfolding_all rfl
  have hm := claim_C8_transfer_once (unitCtx 1 1 2 1) 1 30
    (lineStore [0, 1, 2, 3, 4, 5, 6, 7]) 0 8 1 c8out rfl (le_refl 1) h
  ⟨rfl, le_refl 1, h, hm.1, hm.2.1⟩
